import Mathlib

/-!
# Verification of the Math AI Agent retrieval-and-gate pipeline

Shallow embedding of the pipeline components of the `Math_AI_Agent`
repository:

* `backend/ai_gateway.py` — input/output content gate (`AIGateway`),
* `backend/response_cache.py` — bounded TTL cache (`ResponseCache`),
* `backend/enhanced_retrieval.py` — hybrid retrieval and rank merging
  (`EnhancedRetrieval`).

Strings are modelled as `String`/`List Char` (ASCII-faithful: `lower()` and
character classes are modelled on the ASCII range the spec exercises), Python
floats as exact rationals `ℚ`, Python dicts as insertion-ordered association
lists, and each `time.time()` reading as an explicit rational parameter; all
clock readings within a single method call are modelled as the same instant.
The `re` idioms used by the source (fixed character-class sequences, word
boundaries, a literal-alternation group) are compiled to executable
character-list scanners with the same matching semantics.
-/

/-! ## Character classes and small regex scanners -/

/-- Python whitespace (`\s` / `str.strip()` on the ASCII range):
space, tab, newline, carriage return, vertical tab, form feed. -/
def isPySpace (c : Char) : Bool :=
  c == ' ' || c == '\t' || c == '\n' || c == '\r' ||
    c == Char.ofNat 11 || c == Char.ofNat 12

/-- Python word character `\w` on the ASCII range. -/
def isWordChar (c : Char) : Bool :=
  c.isAlphanum || c == '_'

/-- Python `str.lower()` (ASCII range). -/
def pyLower (s : List Char) : List Char :=
  s.map Char.toLower

/-- Matcher for a regex of shape `C₁+ C₂+ … Cₙ+` (a sequence of one-or-more
character classes), anchored at the start of the string, with backtracking. -/
def matchSeq : List (Char → Bool) → List Char → Bool
  | [], _ => true
  | _ :: _, [] => false
  | p :: ps, c :: cs => p c && (matchSeq ps cs || matchSeq (p :: ps) cs)

/-- `re.search` for a `C₁+ … Cₙ+` pattern: try every start position. -/
def searchSeq (pats : List (Char → Bool)) (s : List Char) : Bool :=
  s.tails.any (matchSeq pats)

/-- `re.search(r'\d+[\+\-\*/\^]\d+', s)`: equivalently, some consecutive
`digit, operator, digit` triple occurs. -/
def hasDigitOpDigit : List Char → Bool
  | a :: b :: c :: rest =>
      (a.isDigit && ['+', '-', '*', '/', '^'].contains b && c.isDigit) ||
        hasDigitOpDigit (b :: c :: rest)
  | _ => false

/-- The atoms of `r'\d+\s+\w+\s+\d+\s+\w+'` (the "ratio pattern"). -/
def ratioAtoms : List (Char → Bool) :=
  [Char.isDigit, isPySpace, isWordChar, isPySpace, Char.isDigit, isPySpace, isWordChar]

/-- Minimal literal stems of
`(meters?|feet|inches?|cm|km|miles?|seconds?|minutes?|hours?)`: the optional
trailing `s` never constrains `re.search`. -/
def unitWords : List (List Char) :=
  ["meter", "feet", "inche", "cm", "km", "mile", "second", "minute", "hour"].map
    String.toList

/-- `re.search(r'\d+\s*(meters?|…|hours?)', s)`: a digit, then whitespace,
then one of the unit stems (the unit stems start with letters, so `\s*` must
consume exactly the intervening whitespace). -/
def hasMeasurePattern (s : List Char) : Bool :=
  s.tails.any fun t =>
    match t with
    | [] => false
    | c :: rest =>
        c.isDigit && unitWords.any (fun u => u.isPrefixOf (rest.dropWhile isPySpace))

/-- A word boundary holds against `none` (string edge) or a non-word char. -/
def boundaryOk : Option Char → Bool
  | none => true
  | some c => !(isWordChar c)

/-- `re.search(r'\b(w₁|…|wₖ)\b', s)`: some `wᵢ` occurs with word boundaries
on both sides. `prev` is the character just before the current position. -/
def wordBoundaryAt (ws : List (List Char)) (prev : Option Char) : List Char → Bool
  | [] => ws.any (fun w => w.isEmpty && boundaryOk prev)
  | c :: cs =>
      ws.any (fun w =>
        w.isPrefixOf (c :: cs) && boundaryOk prev &&
          boundaryOk ((c :: cs).drop w.length).head?) ||
      wordBoundaryAt ws (some c) cs

/-- Search a `\b(alternation)\b` pattern anywhere in `s`. -/
def containsWordAny (ws : List String) (s : List Char) : Bool :=
  wordBoundaryAt (ws.map String.toList) none s

/-- Boolean substring test (Python `in` on strings). -/
def listInfix (pat s : List Char) : Bool :=
  s.tails.any (fun t => pat.isPrefixOf t)

/-- Count non-overlapping occurrences of `pat` in `s`, scanning left to right
(Python `str.count`). -/
def countOccs (pat s : List Char) : Nat :=
  match pat, s with
  | [], s => s.length + 1
  | _ :: _, [] => 0
  | p :: ps, c :: cs =>
      if (p :: ps).isPrefixOf (c :: cs) then
        1 + countOccs (p :: ps) ((c :: cs).drop (p :: ps).length)
      else
        countOccs (p :: ps) cs
termination_by s.length
decreasing_by
  all_goals simp [List.length_drop]
  all_goals omega

/-! ## Content gate: `AIGateway` (`backend/ai_gateway.py`) -/

/-- The fixed keyword vocabulary of `AIGateway._is_math_related`
(transcribed verbatim, duplicates included). -/
def mathKeywords : List String :=
  ["derivative", "integral", "equation", "solve", "calculate", "function",
   "algebra", "calculus", "geometry", "trigonometry", "statistics",
   "probability", "matrix", "vector", "limit", "series", "polynomial",
   "logarithm", "exponential", "sin", "cos", "tan", "sqrt", "sum",
   "product", "factor", "prime", "theorem", "proof", "formula",
   "machines", "widgets", "hours", "minutes", "rate", "ratio", "proportion",
   "speed", "distance", "time", "work", "production", "efficiency",
   "cost", "price", "profit", "percentage", "percent", "discount",
   "area", "volume", "perimeter", "circumference", "radius", "diameter",
   "triangle", "square", "rectangle", "circle", "sphere", "cube",
   "angle", "degrees", "radians", "parallel", "perpendicular",
   "shape", "polygon", "vertex", "edge", "face", "surface",
   "meters", "feet", "inches", "centimeters", "kilometers", "miles",
   "seconds", "minutes", "hours", "days", "weeks", "months", "years",
   "grams", "kilograms", "pounds", "ounces", "liters", "gallons",
   "how many", "how much", "how long", "how far", "how fast",
   "find", "determine", "compute", "evaluate", "estimate"]

/-- The fixed math symbol set of `AIGateway._is_math_related`. -/
def mathSymbols : List Char :=
  ['=', '+', '-', '*', '/', '^', '∫', '∑', '∏', 'π', '∞', '√', '%']

/-- `AIGateway._is_math_related`. -/
def isMathRelated (q : String) : Bool :=
  let ql := pyLower q.toList
  mathKeywords.any (fun kw => listInfix kw.toList ql) ||
  mathSymbols.any (fun sym => q.toList.contains sym) ||
  hasDigitOpDigit q.toList ||
  searchSeq ratioAtoms q.toList ||
  hasMeasurePattern ql

/-- The disallowed-pattern word groups of
`AIGateway._contains_inappropriate_content`. -/
def inappropriateGroups : List (List String) :=
  [["hack", "exploit", "bypass", "cheat"],
   ["personal", "private", "confidential"],
   ["violence", "harm", "illegal"]]

/-- `AIGateway._contains_inappropriate_content`. -/
def containsInappropriate (q : String) : Bool :=
  inappropriateGroups.any (fun ws => containsWordAny ws (pyLower q.toList))

/-- One pass of `re.sub(r'\s+', ' ', ·)`: replace each maximal whitespace run
by a single space; `prev` records whether the previous char was whitespace. -/
def collapseWS : Bool → List Char → List Char
  | _, [] => []
  | prev, c :: cs =>
      if isPySpace c then
        if prev then collapseWS true cs else ' ' :: collapseWS true cs
      else
        c :: collapseWS false cs

/-- Python `str.strip()`. -/
def pyStrip (l : List Char) : List Char :=
  (l.dropWhile isPySpace).rdropWhile isPySpace

/-- The characters removed by `re.sub(r'[<>{}]', '', ·)`. -/
def isStrippedChar (c : Char) : Bool :=
  c == '<' || c == '>' || c == Char.ofNat 123 || c == Char.ofNat 125

/-- `AIGateway._sanitize_query` on character lists:
strip, collapse whitespace, remove the four harmful characters. -/
def sanitizeList (l : List Char) : List Char :=
  (collapseWS false (pyStrip l)).filter (fun c => !(isStrippedChar c))

/-- `AIGateway._sanitize_query`. -/
def sanitizeQuery (q : String) : String :=
  String.mk (sanitizeList q.toList)

/-- The gate's input verdict (`validate_input` result dict). -/
structure InVerdict where
  valid : Bool
  error : Option String
  sanitized_query : Option String
deriving DecidableEq

/-- Error message for non-math input. -/
def outOfDomainMsg : String :=
  "This system is focused on mathematics education only. Please ask math-related questions."

/-- Error message for disallowed content. -/
def inappropriateMsg : String :=
  "Please keep questions appropriate for educational purposes."

/-- `AIGateway.validate_input`: math-relatedness is checked first, then
disallowed content, then the query is sanitized. -/
def validateInput (q : String) : InVerdict :=
  if !(isMathRelated q) then
    ⟨false, some outOfDomainMsg, none⟩
  else if containsInappropriate q then
    ⟨false, some inappropriateMsg, none⟩
  else
    ⟨true, none, some (sanitizeQuery q)⟩

/-- The educational marker tokens of `AIGateway._is_educational_response`. -/
def educationalMarkers : List String :=
  ["step", "solution", "answer", "formula", "theorem", "proof",
   "calculate", "solve", "derivative", "integral", "equation"]

/-- `AIGateway._is_educational_response`. -/
def isEducationalResponse (r : String) : Bool :=
  educationalMarkers.any (fun m => listInfix m.toList (pyLower r.toList))

/-- Python `str.split('\n')`. -/
def splitNl : List Char → List (List Char)
  | [] => [[]]
  | c :: cs =>
      match splitNl cs with
      | [] => [[c]]
      | w :: ws => if c == '\n' then [] :: w :: ws else (c :: w) :: ws

/-- Python `'\n'.join`. -/
def joinNl : List (List Char) → List Char
  | [] => []
  | [w] => w
  | w :: x :: ws => w ++ '\n' :: joinNl (x :: ws)

/-- The symbol class of `AIGateway._is_educational_line`. -/
def eduLineSymbols : List Char :=
  ['=', '+', '-', '*', '/', '^', '∫', '∑', '∏', 'π', '∞', '√']

/-- The connective words of `AIGateway._is_educational_line`. -/
def eduLineWords : List String :=
  ["step", "solution", "because", "therefore", "thus"]

/-- `AIGateway._is_educational_line`. -/
def isEducationalLine (line : List Char) : Bool :=
  line.any (fun c => eduLineSymbols.contains c) ||
  eduLineWords.any (fun w => listInfix w.toList (pyLower line)) ||
  !(pyStrip line).isEmpty

/-- `AIGateway._filter_response`: keep educational lines; if none survive,
return the original response. -/
def filterResponse (r : String) : String :=
  let kept := (splitNl r.toList).filter isEducationalLine
  if kept.isEmpty then r else String.mk (joinNl kept)

/-- The confidence symbol set of `AIGateway._calculate_confidence`. -/
def confSymbols : List Char :=
  ['=', '∫', '∑', '∏', 'π', '∞', '√', '^']

/-- The mathematical terms of `AIGateway._calculate_confidence`. -/
def confTerms : List String :=
  ["derivative", "integral", "equation", "formula", "theorem"]

/-- `AIGateway._calculate_confidence`, with Python floats as exact rationals. -/
def calcConfidence (r : String) : ℚ :=
  let symbolCount : ℕ := (confSymbols.map (fun c => r.toList.count c)).sum
  let termCount : ℕ := (confTerms.map (fun t => countOccs t.toList (pyLower r.toList))).sum
  let conf : ℚ :=
    min ((symbolCount : ℚ) * 0.1) 0.3 +
    (if listInfix "step".toList (pyLower r.toList) then 0.2 else 0) +
    min ((termCount : ℚ) * 0.1) 0.3 +
    (if 100 < r.toList.length then 0.2 else 0)
  min conf 1

/-- The gate's output verdict (`validate_output` result dict). -/
structure OutVerdict where
  valid : Bool
  filtered_response : String
  confidence : ℚ
deriving DecidableEq

/-- Static fallback message for non-educational output. -/
def outFallbackMsg : String :=
  "I can only provide educational mathematics content. Please ask a math question."

/-- `AIGateway.validate_output`. -/
def validateOutput (r : String) : OutVerdict :=
  if !(isEducationalResponse r) then
    ⟨false, outFallbackMsg, 0⟩
  else
    let filtered := filterResponse r
    ⟨true, filtered, calcConfidence filtered⟩

/-! ## Response cache: `ResponseCache` (`backend/response_cache.py`)

Python dicts are modelled as insertion-ordered association lists: value
assignment to an existing key updates it in place (position preserved),
assignment to a fresh key appends, deletion removes the entry, and iteration
follows list order.  `md5(...).hexdigest()` is modelled as the identity on the
pre-hash string `f"{query}_{context}_{model}"`: equal inputs give equal
digests, which is the property the cache relies on. -/

/-- Dict lookup. -/
def lookupA {β : Type} (k : String) : List (String × β) → Option β
  | [] => none
  | (k', v) :: rest => if k' = k then some v else lookupA k rest

/-- Dict assignment `d[k] = v`: update in place, or append if fresh. -/
def updateA {β : Type} (k : String) (v : β) : List (String × β) → List (String × β)
  | [] => [(k, v)]
  | (k', v') :: rest =>
      if k' = k then (k, v) :: rest else (k', v') :: updateA k v rest

/-- Dict deletion `del d[k]` (no-op when absent). -/
def eraseA {β : Type} (k : String) : List (String × β) → List (String × β)
  | [] => []
  | (k', v') :: rest => if k' = k then rest else (k', v') :: eraseA k rest

/-- Python `min(xs, key=f)` on a nonempty list: the first element attaining
the minimal key wins ties. -/
def pyMinBy {α : Type} (f : α → ℚ) : List α → Option α
  | [] => none
  | x :: xs => some (xs.foldl (fun acc y => if f y < f acc then y else acc) x)

/-- A stored cache value: `{"response": …, "timestamp": …}`. -/
structure CacheEntry (α : Type) where
  response : α
  timestamp : ℚ
deriving DecidableEq

/-- The `ResponseCache` state: the `cache` and `access_times` dicts plus the
configured `max_size` and `ttl`. -/
structure CacheState (α : Type) where
  cache : List (String × CacheEntry α)
  access_times : List (String × ℚ)
  max_size : ℕ
  ttl : ℚ
deriving DecidableEq

/-- `ResponseCache.__init__`. -/
def emptyCache (α : Type) (max_size : ℕ) (ttl : ℚ) : CacheState α :=
  ⟨[], [], max_size, ttl⟩

/-- `ResponseCache._generate_key` (md5 hexdigest modelled as identity). -/
def generateKey (query context model : String) : String :=
  query ++ "_" ++ context ++ "_" ++ model

/-- `ResponseCache.get`: returns the cached payload (if any) and the
successor state.  `now` models the `time.time()` readings of the call. -/
def cacheGet {α : Type} (st : CacheState α) (query context model : String)
    (now : ℚ) : Option α × CacheState α :=
  let key := generateKey query context model
  match lookupA key st.cache with
  | none => (none, st)
  | some entry =>
      if now - entry.timestamp > st.ttl then
        (none, { st with cache := eraseA key st.cache,
                         access_times := eraseA key st.access_times })
      else
        (some entry.response, { st with access_times := updateA key now st.access_times })

/-- `ResponseCache._evict_oldest`: remove the least-recently-used entry,
chosen by Python `min` over the `access_times` keys. -/
def evictOldest {α : Type} (st : CacheState α) : CacheState α :=
  match pyMinBy (fun p => p.2) st.access_times with
  | none => st
  | some (oldest, _) =>
      { st with cache := eraseA oldest st.cache,
                access_times := eraseA oldest st.access_times }

/-- `ResponseCache.set`. -/
def cacheSet {α : Type} (st : CacheState α) (query : String) (response : α)
    (context model : String) (now : ℚ) : CacheState α :=
  let key := generateKey query context model
  let st1 := if st.max_size ≤ st.cache.length then evictOldest st else st
  { st1 with cache := updateA key ⟨response, now⟩ st1.cache,
             access_times := updateA key now st1.access_times }

/-- `ResponseCache.clear`. -/
def cacheClear {α : Type} (st : CacheState α) : CacheState α :=
  { st with cache := [], access_times := [] }

/-! ## Hybrid retrieval: `EnhancedRetrieval` (`backend/enhanced_retrieval.py`)

The external Qdrant index is a collaborator: its `search`/`scroll` outcome is
passed in as an `Except` value (an `Except.error` models the call raising).
A point's payload is reduced to the fields the pipeline reads: `page_content`
and `source_id` (the remaining metadata fields — `topic`, `grade_level`,
`educational_notes` — are inert passthroughs and are omitted).  Python's
stable `sorted(…, key=…, reverse=True)` is modelled by a stable descending
insertion sort. -/

/-- A point returned by the backing index (payload fields actually read). -/
structure ScoredPoint where
  page_content : String
  score : ℚ
  source_id : String
deriving DecidableEq

/-- A formatted candidate document. -/
structure Doc where
  content : String
  score : ℚ
  source_id : String
deriving DecidableEq

/-- A merged result: the candidate document plus its `final_score`. -/
structure MDoc where
  content : String
  score : ℚ
  source_id : String
  final_score : ℚ
deriving DecidableEq

/-- Stable descending insertion by key `f`: `x` goes in front of the first
element it is `≥` on, so earlier equal-keyed elements stay in front. -/
def insertDescBy {α : Type} (f : α → ℚ) (x : α) : List α → List α
  | [] => [x]
  | y :: ys => if f y ≤ f x then x :: y :: ys else y :: insertDescBy f x ys

/-- Stable descending sort by key `f`
(Python `sorted(…, key=f, reverse=True)`). -/
def sortDescBy {α : Type} (f : α → ℚ) : List α → List α
  | [] => []
  | x :: xs => insertDescBy f x (sortDescBy f xs)

/-- `EnhancedRetrieval._format_results_with_metadata`. -/
def formatResults (results : List ScoredPoint) : List Doc :=
  results.map (fun r => ⟨r.page_content, r.score, r.source_id⟩)

/-- `EnhancedRetrieval._vector_search`: the index outcome is either a sorted
result page or a raised error, which is caught and absorbed as `[]`. -/
def vectorSearch (outcome : Except String (List ScoredPoint)) : List Doc :=
  match outcome with
  | .ok results => formatResults results
  | .error _ => []

/-- One leftmost match of `r'[fx]\([^)]+\)\s*=\s*[^\s]+'` at the head of `l`:
returns the matched text and the remaining suffix. -/
def tryMathExpr (l : List Char) : Option (List Char × List Char) :=
  match l with
  | c :: '(' :: r2 =>
      if c == 'f' || c == 'x' then
        let inner := r2.takeWhile (fun d => !(d == ')'))
        match r2.drop inner.length with
        | ')' :: r4 =>
            if inner.isEmpty then none
            else
              let sp1 := r4.takeWhile isPySpace
              match r4.drop sp1.length with
              | '=' :: r6 =>
                  let sp2 := r6.takeWhile isPySpace
                  let r7 := r6.drop sp2.length
                  let value := r7.takeWhile (fun d => !(isPySpace d))
                  if value.isEmpty then none
                  else
                    some (c :: '(' :: inner ++ ')' :: sp1 ++ '=' :: sp2 ++ value,
                          r7.drop value.length)
              | _ => none
        | _ => none
      else none
  | _ => none

/-- `re.findall` for the math-expression pattern (fuelled scan; every match
consumes at least one character, so `s.length` fuel suffices). -/
def findMathExprs : ℕ → List Char → List (List Char)
  | 0, _ => []
  | _ + 1, [] => []
  | fuel + 1, c :: cs =>
      match tryMathExpr (c :: cs) with
      | some (m, rest) => m :: findMathExprs fuel rest
      | none => findMathExprs fuel cs

/-- `EnhancedRetrieval._extract_math_expression`. -/
def extractMathExpression (query content : List Char) : Bool :=
  let queryMath := findMathExprs query.length query
  let contentMath := findMathExprs content.length content
  if !queryMath.isEmpty && !contentMath.isEmpty then
    let queryExpr := queryMath.flatten.filter (fun c => !(c == ' '))
    let contentExpr := contentMath.flatten.filter (fun c => !(c == ' '))
    listInfix queryExpr contentExpr
  else false

/-- Python `str.split()` (no argument): words separated by whitespace runs. -/
def pySplitWs : List Char → List (List Char)
  | [] => []
  | c :: cs =>
      if isPySpace c then pySplitWs cs
      else (c :: cs.takeWhile (fun d => !(isPySpace d))) ::
             pySplitWs (cs.dropWhile (fun d => !(isPySpace d)))
termination_by l => l.length
decreasing_by
  all_goals simp
  all_goals exact Nat.lt_succ_of_le (List.Sublist.length_le (List.dropWhile_sublist _))

/-- The composite keyword score of one corpus document
(`EnhancedRetrieval._keyword_search` loop body). -/
def keywordScore (queryLower : List Char) (queryWords : List (List Char))
    (contentLower : List Char) : ℚ :=
  let exactMatch := listInfix queryLower contentLower
  let wordMatches : ℕ := queryWords.countP (fun w => listInfix w contentLower)
  let mathExprMatch := extractMathExpression queryLower contentLower
  if exactMatch then 1.0
  else if mathExprMatch then 0.8
  else if 0 < wordMatches then
    ((wordMatches : ℚ) / (queryWords.length : ℚ)) * 0.6
  else 0.0

/-- `EnhancedRetrieval._keyword_search`: scan the scrolled page, score each
document, keep scores `> 0.3`, sort descending, truncate to `top_k`; a raised
scroll error is caught and absorbed as `[]`. -/
def keywordSearch (query : String) (top_k : ℕ)
    (outcome : Except String (List ScoredPoint)) : List Doc :=
  match outcome with
  | .error _ => []
  | .ok results =>
      let queryLower := pyLower query.toList
      let queryWords := (pySplitWs queryLower).dedup
      let kwMatches := results.filterMap (fun r =>
        let contentLower := pyLower r.page_content.toList
        let score := keywordScore queryLower queryWords contentLower
        if 0.3 < score then some (⟨r.page_content, score, r.source_id⟩ : Doc)
        else none)
      (sortDescBy (fun d => d.score) kwMatches).take top_k

/-- The first fold of `EnhancedRetrieval._merge_and_rerank`: vector results
enter keyed by `source_id` with final score `score * 0.7`. -/
def mergeVecFold (vector_results : List Doc) (acc : List (String × MDoc)) :
    List (String × MDoc) :=
  vector_results.foldl
    (fun acc doc =>
      updateA doc.source_id ⟨doc.content, doc.score, doc.source_id, doc.score * 0.7⟩ acc)
    acc

/-- The second fold of `EnhancedRetrieval._merge_and_rerank`: keyword results
boost an existing entry by `score * 0.3` or enter with final `score * 0.3`. -/
def mergeKwFold (keyword_results : List Doc) (acc : List (String × MDoc)) :
    List (String × MDoc) :=
  keyword_results.foldl
    (fun acc doc =>
      match lookupA doc.source_id acc with
      | some e =>
          updateA doc.source_id { e with final_score := e.final_score + doc.score * 0.3 } acc
      | none =>
          updateA doc.source_id ⟨doc.content, doc.score, doc.source_id, doc.score * 0.3⟩ acc)
    acc

/-- The `combined` dict of `EnhancedRetrieval._merge_and_rerank`. -/
def mergeCombined (vector_results keyword_results : List Doc) :
    List (String × MDoc) :=
  mergeKwFold keyword_results (mergeVecFold vector_results [])

/-- `EnhancedRetrieval._merge_and_rerank`: sort the combined values by final
score descending (stable) and return the top 5. -/
def mergeAndRerank (vector_results keyword_results : List Doc) : List MDoc :=
  (sortDescBy (fun e => e.final_score)
      ((mergeCombined vector_results keyword_results).map Prod.snd)).take 5

/-! ## Statement-level definitions -/

/-- The `source_id`s of a candidate list. -/
def docIds (l : List Doc) : List String :=
  l.map (fun d => d.source_id)

/-- The source-local score a candidate list assigns to a document id
(first occurrence). -/
def scoreOf (l : List Doc) (id : String) : Option ℚ :=
  (l.find? (fun d => d.source_id == id)).map (fun d => d.score)

/-- A merged entry is vector-sourced when its id occurs in the vector list. -/
def IsVectorSourced (vr : List Doc) (e : MDoc) : Prop :=
  e.source_id ∈ docIds vr

instance (vr : List Doc) (e : MDoc) : Decidable (IsVectorSourced vr e) := by
  unfold IsVectorSourced
  infer_instance

/-- Well-formedness of the cache state: the two dicts hold exactly the same
keys in the same insertion order, without duplicates.  It holds for the empty
cache and is preserved by every operation. -/
def CacheWF {α : Type} (st : CacheState α) : Prop :=
  st.cache.map Prod.fst = st.access_times.map Prod.fst ∧
    (st.cache.map Prod.fst).Nodup

/-- Insert a batch of (query, payload) pairs with empty context/model. -/
def setAll {α : Type} (st : CacheState α) (items : List (String × α)) (now : ℚ) :
    CacheState α :=
  items.foldl (fun st it => cacheSet st it.1 it.2 "" "" now) st

/-- Strict lexicographic order on character lists (used to state the
"lexicographically smallest fingerprint" tie-break of the spec). -/
def lexLtChars : List Char → List Char → Bool
  | [], [] => false
  | [], _ :: _ => true
  | _ :: _, [] => false
  | a :: as, b :: bs => if a < b then true else if b < a then false else lexLtChars as bs

/-! ## Association-list lemmas -/

theorem lookupA_none_iff {β : Type} (k : String) (l : List (String × β)) :
    lookupA k l = none ↔ k ∉ l.map Prod.fst := by
  induction l with
  | nil => simp [lookupA]
  | cons p rest ih =>
    obtain ⟨k', v⟩ := p
    by_cases h : k' = k
    · subst h
      simp [lookupA]
    · simp only [lookupA, if_neg h, List.map_cons, List.mem_cons, ih]
      constructor
      · intro hk hor
        rcases hor with h1 | h2
        · exact h h1.symm
        · exact hk h2
      · intro hk h2
        exact hk (Or.inr h2)

theorem lookupA_updateA_self {β : Type} (k : String) (v : β) (l : List (String × β)) :
    lookupA k (updateA k v l) = some v := by
  induction l with
  | nil => simp [updateA, lookupA]
  | cons p rest ih =>
    obtain ⟨k', v'⟩ := p
    by_cases h : k' = k
    · simp [updateA, if_pos h, lookupA]
    · simp [updateA, if_neg h, lookupA, if_neg h, ih]

theorem lookupA_updateA_ne {β : Type} (k' k : String) (v : β) (l : List (String × β))
    (h : k' ≠ k) : lookupA k' (updateA k v l) = lookupA k' l := by
  have h2 : ¬ k = k' := fun hh => h hh.symm
  induction l with
  | nil => simp [updateA, lookupA, h2]
  | cons p rest ih =>
    obtain ⟨ka, va⟩ := p
    by_cases hk : ka = k
    · subst hk
      simp [updateA, lookupA, h2]
    · simp only [updateA, if_neg hk, lookupA]
      by_cases hk' : ka = k'
      · simp [hk']
      · simp [hk', ih]

theorem updateA_of_not_mem {β : Type} (k : String) (v : β) (l : List (String × β))
    (h : k ∉ l.map Prod.fst) : updateA k v l = l ++ [(k, v)] := by
  induction l with
  | nil => simp [updateA]
  | cons p rest ih =>
    obtain ⟨k', v'⟩ := p
    simp only [List.map_cons, List.mem_cons] at h
    push_neg at h
    have h3 : ¬ k' = k := fun hh => h.1 hh.symm
    simp [updateA, h3, ih h.2]

theorem map_fst_updateA {β : Type} (k : String) (v : β) (l : List (String × β)) :
    (updateA k v l).map Prod.fst =
      if k ∈ l.map Prod.fst then l.map Prod.fst else l.map Prod.fst ++ [k] := by
  induction l with
  | nil => simp [updateA]
  | cons p rest ih =>
    obtain ⟨k', v'⟩ := p
    by_cases h : k' = k
    · subst h
      simp [updateA]
    · have h3 : ¬ k = k' := fun hh => h hh.symm
      simp only [updateA, if_neg h, List.map_cons, ih]
      by_cases hm : k ∈ rest.map Prod.fst
      · simp [hm, h3]
      · simp [hm, h3]

theorem length_updateA {β : Type} (k : String) (v : β) (l : List (String × β)) :
    (updateA k v l).length =
      if k ∈ l.map Prod.fst then l.length else l.length + 1 := by
  have h := congrArg List.length (map_fst_updateA k v l)
  simp only [List.length_map] at h
  rw [h]
  by_cases hm : k ∈ l.map Prod.fst <;> simp [hm]

theorem map_fst_eraseA {β : Type} (k : String) (l : List (String × β)) :
    (eraseA k l).map Prod.fst = (l.map Prod.fst).erase k := by
  induction l with
  | nil => simp [eraseA]
  | cons p rest ih =>
    obtain ⟨k', v'⟩ := p
    by_cases h : k' = k
    · subst h
      simp [eraseA, List.erase_cons_head]
    · rw [List.map_cons, List.erase_cons_tail]
      · simp [eraseA, if_neg h, ih]
      · simp [h]

theorem length_eraseA_of_mem {β : Type} (k : String) (l : List (String × β))
    (h : k ∈ l.map Prod.fst) : (eraseA k l).length + 1 = l.length := by
  have h2 := congrArg List.length (map_fst_eraseA k l)
  simp only [List.length_map] at h2
  rw [h2, List.length_erase_of_mem h, List.length_map]
  have : 0 < l.length := by
    cases l with
    | nil => simp at h
    | cons p rest => simp
  omega

theorem mem_of_lookupA_some {β : Type} (k : String) (v : β) (l : List (String × β))
    (h : lookupA k l = some v) : (k, v) ∈ l := by
  induction l with
  | nil => simp [lookupA] at h
  | cons p rest ih =>
    obtain ⟨k', v'⟩ := p
    by_cases hk : k' = k
    · subst hk
      simp [lookupA] at h
      simp [h]
    · simp only [lookupA, if_neg hk] at h
      exact List.mem_cons_of_mem _ (ih h)

theorem lookupA_of_mem_of_nodup {β : Type} (k : String) (v : β) (l : List (String × β))
    (hnd : (l.map Prod.fst).Nodup) (h : (k, v) ∈ l) : lookupA k l = some v := by
  induction l with
  | nil => simp at h
  | cons p rest ih =>
    obtain ⟨k', v'⟩ := p
    simp only [List.map_cons, List.nodup_cons] at hnd
    rcases List.mem_cons.mp h with h1 | h2
    · cases h1
      simp [lookupA]
    · have hk : k' ≠ k := by
        intro hh
        apply hnd.1
        rw [hh]
        exact List.mem_map.mpr ⟨(k, v), h2, rfl⟩
      simp [lookupA, if_neg hk, ih hnd.2 h2]

/-! ## `pyMinBy` characterization: Python `min(…, key=f)` returns the first
element attaining the minimal key -/

theorem foldl_min_split {α : Type} (f : α → ℚ) (xs : List α) (a : α) :
    ∃ pre post,
      a :: xs = pre ++ (xs.foldl (fun acc y => if f y < f acc then y else acc) a) :: post ∧
      (∀ p ∈ pre, f (xs.foldl (fun acc y => if f y < f acc then y else acc) a) < f p) ∧
      (∀ p ∈ post, f (xs.foldl (fun acc y => if f y < f acc then y else acc) a) ≤ f p) := by
  induction xs generalizing a with
  | nil =>
    exact ⟨[], [], rfl, by simp, by simp⟩
  | cons y ys ih =>
    simp only [List.foldl_cons]
    obtain ⟨pre', post', heq, hpre, hpost⟩ := ih (if f y < f a then y else a)
    by_cases hy : f y < f a
    · rw [if_pos hy] at heq hpre hpost ⊢
      refine ⟨a :: pre', post', by rw [List.cons_append, ← heq], ?_, hpost⟩
      intro p hp
      have hr : f (ys.foldl (fun acc y => if f y < f acc then y else acc) y) ≤ f y := by
        cases pre' with
        | nil =>
          rw [List.nil_append] at heq
          injection heq with h3 _
          exact (congrArg f h3).ge
        | cons z pre'' =>
          rw [List.cons_append] at heq
          injection heq with h3 _
          exact le_of_lt (h3 ▸ hpre z (List.mem_cons_self z pre''))
      rcases List.mem_cons.mp hp with h1 | h2
      · rw [h1]
        exact lt_of_le_of_lt hr hy
      · exact hpre p h2
    · rw [if_neg hy] at heq hpre hpost ⊢
      have hay : f a ≤ f y := le_of_not_lt hy
      cases pre' with
      | nil =>
        rw [List.nil_append] at heq
        injection heq with h3 h4
        refine ⟨[], y :: ys, by rw [List.nil_append, ← h3], by simp, ?_⟩
        intro p hp
        rcases List.mem_cons.mp hp with h1 | h2
        · rw [h1, ← h3]
          exact hay
        · rw [h4] at h2
          exact hpost p h2
      | cons z pre'' =>
        rw [List.cons_append] at heq
        injection heq with h3 h4
        have hza : f (ys.foldl (fun acc y => if f y < f acc then y else acc) a) < f a := by
          have hz := hpre z (List.mem_cons_self z pre'')
          rw [← h3] at hz
          exact hz
        refine ⟨a :: y :: pre'', post', ?_, ?_, hpost⟩
        · rw [List.cons_append, List.cons_append, ← h4]
        · intro p hp
          rcases List.mem_cons.mp hp with h1 | h2
          · rw [h1]
            exact hza
          · rcases List.mem_cons.mp h2 with h5 | h6
            · rw [h5]
              exact lt_of_lt_of_le hza hay
            · exact hpre p (List.mem_cons_of_mem z h6)

theorem pyMinBy_split {α : Type} (f : α → ℚ) (l : List α) (hne : l ≠ []) :
    ∃ x pre post, pyMinBy f l = some x ∧ l = pre ++ x :: post ∧
      (∀ p ∈ pre, f x < f p) ∧ (∀ p ∈ post, f x ≤ f p) := by
  cases l with
  | nil => exact absurd rfl hne
  | cons a xs =>
    obtain ⟨pre, post, heq, hpre, hpost⟩ := foldl_min_split f xs a
    exact ⟨_, pre, post, rfl, heq, hpre, hpost⟩

theorem pyMinBy_mem {α : Type} (f : α → ℚ) (l : List α) (x : α)
    (h : pyMinBy f l = some x) : x ∈ l := by
  cases l with
  | nil => simp [pyMinBy] at h
  | cons a xs =>
    obtain ⟨x', pre, post, hmin, heq, _, _⟩ := pyMinBy_split f (a :: xs) (by simp)
    rw [h] at hmin
    injection hmin with h2
    rw [heq, ← h2]
    exact List.mem_append.mpr (Or.inr (List.mem_cons_self _ _))

theorem pyMinBy_min {α : Type} (f : α → ℚ) (l : List α) (x : α)
    (h : pyMinBy f l = some x) : ∀ y ∈ l, f x ≤ f y := by
  cases l with
  | nil => simp [pyMinBy] at h
  | cons a xs =>
    obtain ⟨x', pre, post, hmin, heq, hpre, hpost⟩ := pyMinBy_split f (a :: xs) (by simp)
    rw [h] at hmin
    injection hmin with h2
    subst h2
    intro y hy
    rw [heq] at hy
    rcases List.mem_append.mp hy with h1 | h2
    · exact le_of_lt (hpre y h1)
    · rcases List.mem_cons.mp h2 with h3 | h4
      · rw [h3]
      · exact hpost y h4

/-! ## Cache-state lemmas -/

theorem pyMinBy_eq_none_iff {α : Type} (f : α → ℚ) (l : List α) :
    pyMinBy f l = none ↔ l = [] := by
  cases l <;> simp [pyMinBy]

theorem evictOldest_max {α : Type} (st : CacheState α) :
    (evictOldest st).max_size = st.max_size := by
  unfold evictOldest
  cases pyMinBy (fun p => p.2) st.access_times with
  | none => rfl
  | some p => obtain ⟨k0, t0⟩ := p; rfl

theorem evictOldest_ttl {α : Type} (st : CacheState α) :
    (evictOldest st).ttl = st.ttl := by
  unfold evictOldest
  cases pyMinBy (fun p => p.2) st.access_times with
  | none => rfl
  | some p => obtain ⟨k0, t0⟩ := p; rfl

theorem cacheSet_max {α : Type} (st : CacheState α) (q : String) (r : α)
    (c m : String) (t : ℚ) : (cacheSet st q r c m t).max_size = st.max_size := by
  unfold cacheSet
  by_cases h : st.max_size ≤ st.cache.length
  · simp only [if_pos h]
    exact evictOldest_max st
  · simp only [if_neg h]

theorem cacheSet_ttl {α : Type} (st : CacheState α) (q : String) (r : α)
    (c m : String) (t : ℚ) : (cacheSet st q r c m t).ttl = st.ttl := by
  unfold cacheSet
  by_cases h : st.max_size ≤ st.cache.length
  · simp only [if_pos h]
    exact evictOldest_ttl st
  · simp only [if_neg h]

theorem cacheWF_empty (α : Type) (max_size : ℕ) (ttl : ℚ) :
    CacheWF (emptyCache α max_size ttl) := by
  constructor <;> simp [emptyCache]

theorem cacheWF_evictOldest {α : Type} (st : CacheState α) (h : CacheWF st) :
    CacheWF (evictOldest st) := by
  unfold evictOldest
  cases pyMinBy (fun p => p.2) st.access_times with
  | none => exact h
  | some p =>
    obtain ⟨k0, t0⟩ := p
    constructor
    · simp only [map_fst_eraseA, h.1]
    · simp only [map_fst_eraseA]
      exact h.2.erase k0

theorem cacheWF_cacheSet {α : Type} (st : CacheState α) (q : String) (r : α)
    (c m : String) (t : ℚ) (h : CacheWF st) : CacheWF (cacheSet st q r c m t) := by
  unfold cacheSet
  have h1 : CacheWF (if st.max_size ≤ st.cache.length then evictOldest st else st) := by
    by_cases hc : st.max_size ≤ st.cache.length
    · simp only [if_pos hc]
      exact cacheWF_evictOldest st h
    · simp only [if_neg hc]
      exact h
  constructor
  · simp only [map_fst_updateA, h1.1]
  · simp only [map_fst_updateA]
    by_cases hm : generateKey q c m ∈
        (if st.max_size ≤ st.cache.length then evictOldest st else st).cache.map Prod.fst
    · simp only [if_pos hm]
      exact h1.2
    · simp only [if_neg hm]
      simp [List.nodup_append, h1.2, hm]

theorem evictOldest_length {α : Type} (st : CacheState α) (h : CacheWF st)
    (hne : st.cache ≠ []) : (evictOldest st).cache.length + 1 = st.cache.length := by
  have hane : st.access_times ≠ [] := by
    intro he
    have h1 := h.1
    rw [he] at h1
    simp only [List.map_nil, List.map_eq_nil_iff] at h1
    exact hne h1
  obtain ⟨x, pre, post, hmin, _, _, _⟩ := pyMinBy_split (fun p => p.2) st.access_times hane
  obtain ⟨k0, t0⟩ := x
  have hk0 : k0 ∈ st.cache.map Prod.fst := by
    rw [h.1]
    exact List.mem_map.mpr ⟨(k0, t0), pyMinBy_mem _ _ _ hmin, rfl⟩
  unfold evictOldest
  rw [hmin]
  exact length_eraseA_of_mem k0 st.cache hk0

theorem evictOldest_keys_subset {α : Type} (st : CacheState α) :
    (evictOldest st).cache.map Prod.fst ⊆ st.cache.map Prod.fst := by
  unfold evictOldest
  cases pyMinBy (fun p => p.2) st.access_times with
  | none => exact fun x hx => hx
  | some p =>
    obtain ⟨k0, t0⟩ := p
    simp only [map_fst_eraseA]
    intro x hx
    exact List.mem_of_mem_erase hx

theorem cacheSet_keys_subset {α : Type} (st : CacheState α) (q : String) (r : α)
    (c m : String) (t : ℚ) :
    (cacheSet st q r c m t).cache.map Prod.fst ⊆
      generateKey q c m :: st.cache.map Prod.fst := by
  unfold cacheSet
  simp only [map_fst_updateA]
  intro x hx
  have hsub : (if st.max_size ≤ st.cache.length then evictOldest st else st).cache.map Prod.fst ⊆
      st.cache.map Prod.fst := by
    by_cases hc : st.max_size ≤ st.cache.length
    · simp only [if_pos hc]
      exact evictOldest_keys_subset st
    · simp only [if_neg hc]
      exact fun x hx => hx
  by_cases hm : generateKey q c m ∈
      (if st.max_size ≤ st.cache.length then evictOldest st else st).cache.map Prod.fst
  · rw [if_pos hm] at hx
    exact List.mem_cons_of_mem _ (hsub hx)
  · rw [if_neg hm] at hx
    rcases List.mem_append.mp hx with h1 | h2
    · exact List.mem_cons_of_mem _ (hsub h1)
    · simp at h2
      simp [h2]

theorem cacheSet_length_le {α : Type} (st : CacheState α) (q : String) (r : α)
    (c m : String) (t : ℚ) (h : CacheWF st) (h1 : 1 ≤ st.max_size)
    (hle : st.cache.length ≤ st.max_size) :
    (cacheSet st q r c m t).cache.length ≤ st.max_size := by
  unfold cacheSet
  by_cases hc : st.max_size ≤ st.cache.length
  · simp only [if_pos hc]
    have hcap : st.cache.length = st.max_size := le_antisymm hle hc
    have hne : st.cache ≠ [] := by
      intro he
      rw [he] at hcap
      simp at hcap
      omega
    have hlen := evictOldest_length st h hne
    rw [length_updateA]
    by_cases hm : generateKey q c m ∈ (evictOldest st).cache.map Prod.fst
    · rw [if_pos hm]
      omega
    · rw [if_neg hm]
      omega
  · simp only [if_neg hc]
    rw [length_updateA]
    by_cases hm : generateKey q c m ∈ st.cache.map Prod.fst
    · rw [if_pos hm]
      exact hle
    · rw [if_neg hm]
      omega

theorem cacheSet_length_fresh {α : Type} (st : CacheState α) (q : String) (r : α)
    (c m : String) (t : ℚ) (h : CacheWF st) (h1 : 1 ≤ st.max_size)
    (hle : st.cache.length ≤ st.max_size)
    (hfresh : generateKey q c m ∉ st.cache.map Prod.fst) :
    (cacheSet st q r c m t).cache.length = min (st.cache.length + 1) st.max_size := by
  unfold cacheSet
  by_cases hc : st.max_size ≤ st.cache.length
  · simp only [if_pos hc]
    have hcap : st.cache.length = st.max_size := le_antisymm hle hc
    have hne : st.cache ≠ [] := by
      intro he
      rw [he] at hcap
      simp at hcap
      omega
    have hlen := evictOldest_length st h hne
    have hm : generateKey q c m ∉ (evictOldest st).cache.map Prod.fst :=
      fun hmem => hfresh (evictOldest_keys_subset st hmem)
    rw [length_updateA, if_neg hm]
    omega
  · simp only [if_neg hc]
    rw [length_updateA, if_neg hfresh]
    omega

theorem setAll_length {α : Type} (ms : ℕ) (t : ℚ) (items : List (String × α)) :
    ∀ (st : CacheState α), CacheWF st → st.max_size = ms → 1 ≤ ms →
      st.cache.length ≤ ms →
      (∀ it ∈ items, generateKey it.1 "" "" ∉ st.cache.map Prod.fst) →
      (items.map (fun it => generateKey it.1 "" "")).Nodup →
      (setAll st items t).cache.length = min (st.cache.length + items.length) ms := by
  induction items with
  | nil =>
    intro st _ hmax _ hle _ _
    simp only [setAll, List.foldl_nil, List.length_nil, Nat.add_zero]
    omega
  | cons it items ih =>
    intro st hwf hmax hms hle hfresh hnd
    simp only [setAll, List.foldl_cons]
    simp only [List.map_cons, List.nodup_cons] at hnd
    have hstep : (cacheSet st it.1 it.2 "" "" t).cache.length =
        min (st.cache.length + 1) ms := by
      rw [← hmax]
      exact cacheSet_length_fresh st it.1 it.2 "" "" t hwf (hmax ▸ hms)
        (hmax ▸ hle) (hfresh it (List.mem_cons_self it items))
    have hres := ih (cacheSet st it.1 it.2 "" "" t)
      (cacheWF_cacheSet st it.1 it.2 "" "" t hwf)
      (by rw [cacheSet_max, hmax])
      hms
      (by rw [hstep]; omega)
      (by
        intro jt hjt hmem
        rcases List.mem_cons.mp (cacheSet_keys_subset st it.1 it.2 "" "" t hmem)
          with h1 | h2
        · exact hnd.1 (h1 ▸ List.mem_map.mpr ⟨jt, hjt, rfl⟩)
        · exact hfresh jt (List.mem_cons_of_mem it hjt) h2)
      hnd.2
    simp only [setAll] at hres
    rw [hres, hstep]
    simp only [List.length_cons]
    omega

/-! ## Sorting lemmas: `sortDescBy` is a stable descending sort -/

theorem mem_insertDescBy {α : Type} (f : α → ℚ) (x a : α) (l : List α) :
    a ∈ insertDescBy f x l ↔ a = x ∨ a ∈ l := by
  induction l with
  | nil => simp [insertDescBy]
  | cons y ys ih =>
    by_cases hc : f y ≤ f x
    · simp [insertDescBy, if_pos hc]
    · simp only [insertDescBy, if_neg hc, List.mem_cons, ih]
      tauto

theorem mem_sortDescBy {α : Type} (f : α → ℚ) (a : α) (l : List α) :
    a ∈ sortDescBy f l ↔ a ∈ l := by
  induction l with
  | nil => simp [sortDescBy]
  | cons y ys ih =>
    simp only [sortDescBy, mem_insertDescBy, List.mem_cons, ih]

theorem insertDescBy_sorted {α : Type} (f : α → ℚ) (x : α) (l : List α)
    (hl : List.Pairwise (fun a b => f b ≤ f a) l) :
    List.Pairwise (fun a b => f b ≤ f a) (insertDescBy f x l) := by
  induction l with
  | nil => simp [insertDescBy]
  | cons y ys ih =>
    rcases List.pairwise_cons.mp hl with ⟨hy, hys⟩
    by_cases hc : f y ≤ f x
    · rw [insertDescBy, if_pos hc]
      refine List.pairwise_cons.mpr ⟨?_, hl⟩
      intro z hz
      rcases List.mem_cons.mp hz with h1 | h2
      · rw [h1]
        exact hc
      · exact le_trans (hy z h2) hc
    · rw [insertDescBy, if_neg hc]
      refine List.pairwise_cons.mpr ⟨?_, ih hys⟩
      intro z hz
      rcases (mem_insertDescBy f x z ys).mp hz with h1 | h2
      · rw [h1]
        exact le_of_lt (not_le.mp hc)
      · exact hy z h2

theorem sortDescBy_sorted {α : Type} (f : α → ℚ) (l : List α) :
    List.Pairwise (fun a b => f b ≤ f a) (sortDescBy f l) := by
  induction l with
  | nil => simp [sortDescBy]
  | cons y ys ih => exact insertDescBy_sorted f y (sortDescBy f ys) ih

theorem insertDescBy_pairwise {α : Type} (f : α → ℚ) (R : α → α → Prop)
    (hne : ∀ a b, f a ≠ f b → R a b) (x : α) (l : List α)
    (hall : ∀ z ∈ l, R x z) (hl : List.Pairwise R l) :
    List.Pairwise R (insertDescBy f x l) := by
  induction l with
  | nil => simp [insertDescBy, hl]
  | cons y ys ih =>
    rcases List.pairwise_cons.mp hl with ⟨hy, hys⟩
    by_cases hc : f y ≤ f x
    · rw [insertDescBy, if_pos hc]
      exact List.pairwise_cons.mpr ⟨hall, hl⟩
    · rw [insertDescBy, if_neg hc]
      refine List.pairwise_cons.mpr ⟨?_, ?_⟩
      · intro z hz
        rcases (mem_insertDescBy f x z ys).mp hz with h1 | h2
        · rw [h1]
          exact hne y x (ne_of_gt (not_le.mp hc))
        · exact hy z h2
      · exact ih (fun z hz => hall z (List.mem_cons_of_mem y hz)) hys

theorem sortDescBy_pairwise {α : Type} (f : α → ℚ) (R : α → α → Prop)
    (hne : ∀ a b, f a ≠ f b → R a b) (l : List α) (hl : List.Pairwise R l) :
    List.Pairwise R (sortDescBy f l) := by
  induction l with
  | nil => simp [sortDescBy]
  | cons y ys ih =>
    rcases List.pairwise_cons.mp hl with ⟨hy, hys⟩
    exact insertDescBy_pairwise f R hne y (sortDescBy f ys)
      (fun z hz => hy z ((mem_sortDescBy f z ys).mp hz)) (ih hys)

/-! ## Merge-fold lemmas -/

theorem mem_updateA {β : Type} (k : String) (v : β) (l : List (String × β)) :
    ∀ p ∈ updateA k v l, p = (k, v) ∨ p ∈ l := by
  induction l with
  | nil => simp [updateA]
  | cons q rest ih =>
    obtain ⟨k', v'⟩ := q
    intro p hp
    by_cases h : k' = k
    · rw [updateA, if_pos h] at hp
      rcases List.mem_cons.mp hp with h1 | h2
      · exact Or.inl h1
      · exact Or.inr (List.mem_cons_of_mem _ h2)
    · rw [updateA, if_neg h] at hp
      rcases List.mem_cons.mp hp with h1 | h2
      · exact Or.inr (h1 ▸ List.mem_cons_self _ _)
      · rcases ih p h2 with h3 | h4
        · exact Or.inl h3
        · exact Or.inr (List.mem_cons_of_mem _ h4)

theorem mergeVecFold_eq (vr : List Doc) :
    ∀ acc : List (String × MDoc), (docIds vr).Nodup →
      (∀ d ∈ vr, d.source_id ∉ acc.map Prod.fst) →
      mergeVecFold vr acc =
        acc ++ vr.map (fun d =>
          (d.source_id, (⟨d.content, d.score, d.source_id, d.score * 0.7⟩ : MDoc))) := by
  induction vr with
  | nil => intro acc _ _; simp [mergeVecFold]
  | cons d vr ih =>
    intro acc hnd hfresh
    simp only [docIds, List.map_cons, List.nodup_cons] at hnd
    simp only [mergeVecFold, List.foldl_cons]
    rw [updateA_of_not_mem _ _ _ (hfresh d (List.mem_cons_self d vr))]
    have hres := ih (acc ++ [(d.source_id, (⟨d.content, d.score, d.source_id, d.score * 0.7⟩ : MDoc))])
      hnd.2
      (by
        intro d' hd' hmem
        rw [List.map_append, List.mem_append] at hmem
        rcases hmem with h1 | h2
        · exact hfresh d' (List.mem_cons_of_mem d hd') h1
        · simp at h2
          exact hnd.1 (h2 ▸ List.mem_map.mpr ⟨d', hd', rfl⟩))
    simp only [mergeVecFold] at hres
    rw [hres, List.append_assoc]
    simp

theorem mergeKwFold_lookup_not_mem (kr : List Doc) :
    ∀ (acc : List (String × MDoc)) (id : String), id ∉ docIds kr →
      lookupA id (mergeKwFold kr acc) = lookupA id acc := by
  induction kr with
  | nil => intro acc id _; simp [mergeKwFold]
  | cons d kr ih =>
    intro acc id hid
    simp only [docIds, List.map_cons, List.mem_cons] at hid
    push_neg at hid
    simp only [mergeKwFold, List.foldl_cons]
    have hres := ih (match lookupA d.source_id acc with
      | some e => updateA d.source_id { e with final_score := e.final_score + d.score * 0.3 } acc
      | none => updateA d.source_id ⟨d.content, d.score, d.source_id, d.score * 0.3⟩ acc) id
      (by
        intro hmem
        exact absurd hmem (by simpa [docIds] using hid.2))
    simp only [mergeKwFold] at hres
    rw [hres]
    cases hl : lookupA d.source_id acc with
    | some e => exact lookupA_updateA_ne id d.source_id _ acc hid.1
    | none => exact lookupA_updateA_ne id d.source_id _ acc hid.1

theorem mergeKwFold_lookup_mem (kr : List Doc) :
    ∀ (acc : List (String × MDoc)) (id : String) (d : Doc),
      (docIds kr).Nodup →
      kr.find? (fun x => x.source_id == id) = some d →
      lookupA id (mergeKwFold kr acc) =
        (match lookupA id acc with
         | some e => some { e with final_score := e.final_score + d.score * 0.3 }
         | none => some (⟨d.content, d.score, d.source_id, d.score * 0.3⟩ : MDoc)) := by
  induction kr with
  | nil =>
    intro acc id d _ hfind
    simp at hfind
  | cons d0 kr ih =>
    intro acc id d hnd hfind
    simp only [docIds, List.map_cons, List.nodup_cons] at hnd
    by_cases hid : d0.source_id = id
    · have hbeq : (d0.source_id == id) = true := beq_iff_eq.mpr hid
      simp only [List.find?, hbeq] at hfind
      injection hfind with hd
      subst hd
      subst hid
      have hnotin : d0.source_id ∉ docIds kr := by simpa [docIds] using hnd.1
      simp only [mergeKwFold, List.foldl_cons]
      cases hl : lookupA d0.source_id acc with
      | some e =>
        have hres := mergeKwFold_lookup_not_mem kr
          (updateA d0.source_id { e with final_score := e.final_score + d0.score * 0.3 } acc)
          d0.source_id hnotin
        simp only [mergeKwFold] at hres
        simp only [hl]
        rw [hres, lookupA_updateA_self]
      | none =>
        have hres := mergeKwFold_lookup_not_mem kr
          (updateA d0.source_id
            (⟨d0.content, d0.score, d0.source_id, d0.score * 0.3⟩ : MDoc) acc)
          d0.source_id hnotin
        simp only [mergeKwFold] at hres
        simp only [hl]
        rw [hres, lookupA_updateA_self]
    · have hbeq : (d0.source_id == id) = false := beq_eq_false_iff_ne.mpr hid
      simp only [List.find?, hbeq] at hfind
      have hne : id ≠ d0.source_id := fun hh => hid hh.symm
      simp only [mergeKwFold, List.foldl_cons]
      cases hl : lookupA d0.source_id acc with
      | some e =>
        have hres := ih
          (updateA d0.source_id { e with final_score := e.final_score + d0.score * 0.3 } acc)
          id d hnd.2 hfind
        simp only [mergeKwFold] at hres
        simp only [hl]
        rw [hres, lookupA_updateA_ne id d0.source_id _ acc hne]
      | none =>
        have hres := ih
          (updateA d0.source_id
            (⟨d0.content, d0.score, d0.source_id, d0.score * 0.3⟩ : MDoc) acc)
          id d hnd.2 hfind
        simp only [mergeKwFold] at hres
        simp only [hl]
        rw [hres, lookupA_updateA_ne id d0.source_id _ acc hne]

theorem lookupA_assocMap {β : Type} (g : Doc → β) (l : List Doc) (id : String) :
    lookupA id (l.map (fun d => (d.source_id, g d))) =
      (l.find? (fun d => d.source_id == id)).map g := by
  induction l with
  | nil => simp [lookupA]
  | cons d l ih =>
    simp only [List.map_cons, lookupA]
    by_cases h : d.source_id = id
    · have hbeq : (d.source_id == id) = true := beq_iff_eq.mpr h
      simp only [if_pos h, List.find?, hbeq]
      rfl
    · have hbeq : (d.source_id == id) = false := beq_eq_false_iff_ne.mpr h
      simp only [if_neg h, List.find?, hbeq, ih]

theorem mergeKwFold_keys (kr : List Doc) :
    ∀ acc : List (String × MDoc), (docIds kr).Nodup →
      (mergeKwFold kr acc).map Prod.fst =
        acc.map Prod.fst ++
          (docIds kr).filter (fun id => decide (id ∉ acc.map Prod.fst)) := by
  induction kr with
  | nil => intro acc _; simp [mergeKwFold, docIds]
  | cons d kr ih =>
    intro acc hnd
    simp only [docIds, List.map_cons, List.nodup_cons] at hnd
    simp only [mergeKwFold, List.foldl_cons]
    have hfilter : docIds (d :: kr) = d.source_id :: docIds kr := by
      simp [docIds]
    by_cases hm : d.source_id ∈ acc.map Prod.fst
    · obtain ⟨e, hl⟩ : ∃ e, lookupA d.source_id acc = some e := by
        cases hlk : lookupA d.source_id acc with
        | none => exact absurd ((lookupA_none_iff _ _).mp hlk) (not_not_intro hm)
        | some e => exact ⟨e, rfl⟩
      simp only [hl]
      have hres := ih
        (updateA d.source_id { e with final_score := e.final_score + d.score * 0.3 } acc)
        hnd.2
      simp only [mergeKwFold] at hres
      rw [hres]
      simp only [map_fst_updateA, hm, if_true]
      rw [hfilter, List.filter_cons]
      have hpred : (decide (d.source_id ∉ acc.map Prod.fst)) = false := by
        simp [hm]
      rw [hpred]
      simp
    · have hl : lookupA d.source_id acc = none := (lookupA_none_iff _ _).mpr hm
      simp only [hl]
      have hres := ih
        (updateA d.source_id (⟨d.content, d.score, d.source_id, d.score * 0.3⟩ : MDoc) acc)
        hnd.2
      simp only [mergeKwFold] at hres
      rw [hres]
      have hmf : (updateA d.source_id
          (⟨d.content, d.score, d.source_id, d.score * 0.3⟩ : MDoc) acc).map Prod.fst =
          acc.map Prod.fst ++ [d.source_id] := by
        rw [map_fst_updateA, if_neg hm]
      simp only [hmf]
      rw [hfilter, List.filter_cons]
      have hpred : (decide (d.source_id ∉ acc.map Prod.fst)) = true := by
        simp [hm]
      rw [hpred]
      have hcong : (docIds kr).filter
            (fun id => decide (id ∉ acc.map Prod.fst ++ [d.source_id])) =
          (docIds kr).filter (fun id => decide (id ∉ acc.map Prod.fst)) := by
        apply List.filter_congr
        intro id hid
        have hne : id ≠ d.source_id := by
          intro hh
          exact hnd.1 (hh ▸ hid)
        simp [List.mem_append, hne]
      rw [hcong]
      simp

theorem mergeVecFold_sid (vr : List Doc) :
    ∀ acc : List (String × MDoc), (∀ p ∈ acc, (p.2).source_id = p.1) →
      ∀ p ∈ mergeVecFold vr acc, (p.2).source_id = p.1 := by
  induction vr with
  | nil =>
    intro acc h
    simpa [mergeVecFold] using h
  | cons d vr ih =>
    intro acc h p hp
    simp only [mergeVecFold, List.foldl_cons] at hp
    refine ih _ ?_ p (by simpa [mergeVecFold] using hp)
    intro q hq
    rcases mem_updateA _ _ _ q hq with h1 | h2
    · subst h1
      rfl
    · exact h q h2

theorem mergeKwFold_sid (kr : List Doc) :
    ∀ acc : List (String × MDoc), (∀ p ∈ acc, (p.2).source_id = p.1) →
      ∀ p ∈ mergeKwFold kr acc, (p.2).source_id = p.1 := by
  induction kr with
  | nil =>
    intro acc h
    simpa [mergeKwFold] using h
  | cons d kr ih =>
    intro acc h p hp
    simp only [mergeKwFold, List.foldl_cons] at hp
    cases hl : lookupA d.source_id acc with
    | some e =>
      simp only [hl] at hp
      refine ih _ ?_ p (by simpa [mergeKwFold] using hp)
      intro q hq
      rcases mem_updateA _ _ _ q hq with h1 | h2
      · subst h1
        exact h (d.source_id, e) (mem_of_lookupA_some _ _ _ hl)
      · exact h q h2
    | none =>
      simp only [hl] at hp
      refine ih _ ?_ p (by simpa [mergeKwFold] using hp)
      intro q hq
      rcases mem_updateA _ _ _ q hq with h1 | h2
      · subst h1
        rfl
      · exact h q h2

theorem mergeCombined_sid (vr kr : List Doc) :
    ∀ p ∈ mergeCombined vr kr, (p.2).source_id = p.1 :=
  mergeKwFold_sid kr _ (mergeVecFold_sid vr [] (by simp))

theorem mergeCombined_keys (vr kr : List Doc) (hv : (docIds vr).Nodup)
    (hk : (docIds kr).Nodup) :
    (mergeCombined vr kr).map Prod.fst =
      docIds vr ++ (docIds kr).filter (fun id => decide (id ∉ docIds vr)) := by
  have hvec := mergeVecFold_eq vr [] hv (by simp)
  have hkeys : (mergeVecFold vr []).map Prod.fst = docIds vr := by
    rw [hvec]
    simp [docIds]
  unfold mergeCombined
  rw [mergeKwFold_keys kr _ hk]
  simp only [hkeys]

theorem mergeCombined_keys_nodup (vr kr : List Doc) (hv : (docIds vr).Nodup)
    (hk : (docIds kr).Nodup) :
    ((mergeCombined vr kr).map Prod.fst).Nodup := by
  rw [mergeCombined_keys vr kr hv hk]
  refine List.Nodup.append hv (hk.filter _) ?_
  intro x hx hfx
  have := List.of_mem_filter hfx
  simp at this
  exact this hx

theorem find?_sid_none (l : List Doc) (id : String) :
    l.find? (fun d => d.source_id == id) = none ↔ id ∉ docIds l := by
  rw [List.find?_eq_none]
  simp only [beq_iff_eq, docIds, List.mem_map]
  constructor
  · rintro h ⟨d, hd, hid⟩
    exact h d hd hid
  · intro h d hd hid
    exact h ⟨d, hd, hid⟩

theorem mergeCombined_lookup (vr kr : List Doc) (hv : (docIds vr).Nodup)
    (hk : (docIds kr).Nodup) (id : String) :
    lookupA id (mergeCombined vr kr) =
      match vr.find? (fun d => d.source_id == id), kr.find? (fun d => d.source_id == id) with
      | some dv, some dk =>
          some (⟨dv.content, dv.score, dv.source_id, dv.score * 0.7 + dk.score * 0.3⟩ : MDoc)
      | some dv, none =>
          some (⟨dv.content, dv.score, dv.source_id, dv.score * 0.7⟩ : MDoc)
      | none, some dk =>
          some (⟨dk.content, dk.score, dk.source_id, dk.score * 0.3⟩ : MDoc)
      | none, none => none := by
  have hacc := mergeVecFold_eq vr [] hv (by simp)
  have hl0 : lookupA id (mergeVecFold vr []) =
      (vr.find? (fun d => d.source_id == id)).map
        (fun d => (⟨d.content, d.score, d.source_id, d.score * 0.7⟩ : MDoc)) := by
    rw [hacc, List.nil_append, lookupA_assocMap]
  unfold mergeCombined
  cases hfk : kr.find? (fun d => d.source_id == id) with
  | some dk =>
    rw [mergeKwFold_lookup_mem kr _ id dk hk hfk, hl0]
    cases hfv : vr.find? (fun d => d.source_id == id) with
    | some dv => rfl
    | none => rfl
  | none =>
    rw [mergeKwFold_lookup_not_mem kr _ id ((find?_sid_none kr id).mp hfk), hl0]
    cases hfv : vr.find? (fun d => d.source_id == id) with
    | some dv => rfl
    | none => rfl

/-! ## Sanitization lemmas -/

theorem collapseWS_cons_space_false (x : Char) (xs : List Char)
    (hx : isPySpace x = true) :
    collapseWS false (x :: xs) = ' ' :: collapseWS true xs := by
  simp [collapseWS, hx]

theorem collapseWS_cons_space_true (x : Char) (xs : List Char)
    (hx : isPySpace x = true) :
    collapseWS true (x :: xs) = collapseWS true xs := by
  simp [collapseWS, hx]

theorem collapseWS_cons_nonspace (b : Bool) (x : Char) (xs : List Char)
    (hx : isPySpace x = false) :
    collapseWS b (x :: xs) = x :: collapseWS false xs := by
  cases b <;> simp [collapseWS, hx]

theorem mem_collapseWS (l : List Char) :
    ∀ (b : Bool) (c : Char), c ∈ collapseWS b l → c ∈ l ∨ c = ' ' := by
  induction l with
  | nil =>
    intro b c h
    simp [collapseWS] at h
  | cons x xs ih =>
    intro b c h
    by_cases hx : isPySpace x
    · cases b with
      | true =>
        simp only [collapseWS, if_pos hx, if_pos rfl] at h
        rcases ih true c h with h1 | h2
        · exact Or.inl (List.mem_cons_of_mem x h1)
        · exact Or.inr h2
      | false =>
        simp only [collapseWS, if_pos hx] at h
        rcases List.mem_cons.mp h with h1 | h2
        · exact Or.inr h1
        · rcases ih true c h2 with h3 | h4
          · exact Or.inl (List.mem_cons_of_mem x h3)
          · exact Or.inr h4
    · simp only [collapseWS, if_neg hx] at h
      rcases List.mem_cons.mp h with h1 | h2
      · exact Or.inl (h1 ▸ List.mem_cons_self x xs)
      · rcases ih false c h2 with h3 | h4
        · exact Or.inl (List.mem_cons_of_mem x h3)
        · exact Or.inr h4

theorem collapseWS_space (l : List Char) :
    ∀ (b : Bool) (c : Char), c ∈ collapseWS b l → isPySpace c = true → c = ' ' := by
  induction l with
  | nil =>
    intro b c h
    simp [collapseWS] at h
  | cons x xs ih =>
    intro b c h hc
    by_cases hx : isPySpace x
    · cases b with
      | true =>
        simp only [collapseWS, if_pos hx, if_pos rfl] at h
        exact ih true c h hc
      | false =>
        simp only [collapseWS, if_pos hx] at h
        rcases List.mem_cons.mp h with h1 | h2
        · exact h1
        · exact ih true c h2 hc
    · simp only [collapseWS, if_neg hx] at h
      rcases List.mem_cons.mp h with h1 | h2
      · rw [h1] at hc
        exact absurd hc hx
      · exact ih false c h2 hc

theorem collapseWS_head_true (l : List Char) :
    ∀ c : Char, (collapseWS true l).head? = some c → isPySpace c = false := by
  induction l with
  | nil =>
    intro c h
    simp [collapseWS] at h
  | cons x xs ih =>
    intro c h
    by_cases hx : isPySpace x
    · simp only [collapseWS, if_pos hx, if_pos rfl] at h
      exact ih c h
    · simp only [collapseWS, if_neg hx, List.head?_cons] at h
      injection h with h1
      rw [← h1]
      exact Bool.not_eq_true _ ▸ hx

theorem collapseWS_head_false (x : Char) (xs : List Char) (hx : isPySpace x = false) :
    collapseWS false (x :: xs) = x :: collapseWS false xs := by
  simp [collapseWS, hx]

theorem collapseWS_getLast (l : List Char) :
    ∀ (b : Bool) (c : Char), l.getLast? = some c → isPySpace c = false →
      (collapseWS b l).getLast? = some c := by
  induction l with
  | nil =>
    intro b c h _
    simp at h
  | cons x xs ih =>
    intro b c h hc
    cases xs with
    | nil =>
      simp only [List.getLast?_singleton] at h
      injection h with h1
      subst h1
      cases b <;> simp [collapseWS, hc]
    | cons y ys =>
      rw [List.getLast?_cons_cons] at h
      by_cases hx : isPySpace x = true
      · cases b with
        | true =>
          rw [collapseWS_cons_space_true x (y :: ys) hx]
          exact ih true c h hc
        | false =>
          rw [collapseWS_cons_space_false x (y :: ys) hx]
          have hm := ih true c h hc
          cases hcw : collapseWS true (y :: ys) with
          | nil =>
            rw [hcw] at hm
            simp at hm
          | cons m ms =>
            rw [hcw] at hm
            rw [List.getLast?_cons_cons]
            exact hm
      · rw [collapseWS_cons_nonspace b x (y :: ys) (by simpa using hx)]
        have hm := ih false c h hc
        cases hcw : collapseWS false (y :: ys) with
        | nil =>
          rw [hcw] at hm
          simp at hm
        | cons m ms =>
          rw [hcw] at hm
          rw [List.getLast?_cons_cons]
          exact hm

theorem collapseWS_chain (l : List Char) :
    ∀ b : Bool, List.Chain'
      (fun a c => isPySpace a = false ∨ isPySpace c = false) (collapseWS b l) := by
  induction l with
  | nil =>
    intro b
    simp [collapseWS]
  | cons x xs ih =>
    intro b
    by_cases hx : isPySpace x
    · cases b with
      | true =>
        simp only [collapseWS, if_pos hx, if_pos rfl]
        exact ih true
      | false =>
        simp only [collapseWS, if_pos hx]
        refine List.chain'_cons'.mpr ⟨?_, ih true⟩
        intro y hy
        exact Or.inr (collapseWS_head_true xs y hy)
    · simp only [collapseWS, if_neg hx]
      refine List.chain'_cons'.mpr ⟨?_, ih false⟩
      intro y _
      exact Or.inl (Bool.not_eq_true _ ▸ hx)

theorem collapseWS_id (l : List Char) :
    (∀ c ∈ l, isPySpace c = true → c = ' ') →
    List.Chain' (fun a c => isPySpace a = false ∨ isPySpace c = false) l →
    (collapseWS false l = l ∧
      ((∀ c : Char, l.head? = some c → isPySpace c = false) → collapseWS true l = l)) := by
  induction l with
  | nil =>
    intro _ _
    exact ⟨rfl, fun _ => rfl⟩
  | cons x xs ih =>
    intro hsp hch
    rcases List.chain'_cons'.mp hch with ⟨hR, hch'⟩
    have ih' := ih (fun c hc => hsp c (List.mem_cons_of_mem x hc)) hch'
    by_cases hx : isPySpace x = true
    · have hxsp : x = ' ' := hsp x (List.mem_cons_self x xs) hx
      have hhead : ∀ c : Char, xs.head? = some c → isPySpace c = false := by
        intro c hc
        rcases hR c (by rw [hc]; rfl) with h1 | h2
        · rw [h1] at hx
          simp at hx
        · exact h2
      constructor
      · rw [collapseWS_cons_space_false x xs hx, ih'.2 hhead, hxsp]
      · intro hhd
        have := hhd x rfl
        rw [this] at hx
        exact absurd hx (by simp)
    · have hx' : isPySpace x = false := by simpa using hx
      constructor
      · rw [collapseWS_cons_nonspace false x xs hx', ih'.1]
      · intro _
        rw [collapseWS_cons_nonspace true x xs hx', ih'.1]

theorem head?_dropWhile (p : Char → Bool) (l : List Char) :
    ∀ c : Char, (l.dropWhile p).head? = some c → p c = false := by
  induction l with
  | nil =>
    intro c h
    simp at h
  | cons x xs ih =>
    intro c h
    by_cases hx : p x
    · rw [List.dropWhile_cons_of_pos hx] at h
      exact ih c h
    · rw [List.dropWhile_cons_of_neg hx, List.head?_cons] at h
      injection h with h1
      rw [← h1]
      simpa using hx

theorem pyStrip_subset (l : List Char) : pyStrip l ⊆ l := by
  intro c hc
  have h1 : c ∈ l.dropWhile isPySpace :=
    (List.rdropWhile_prefix isPySpace (l.dropWhile isPySpace)).subset hc
  exact (List.dropWhile_sublist isPySpace).subset h1

theorem pyStrip_head (l : List Char) :
    ∀ c : Char, (pyStrip l).head? = some c → isPySpace c = false := by
  intro c hc
  have hps0 : pyStrip l = List.rdropWhile isPySpace (l.dropWhile isPySpace) := rfl
  obtain ⟨t, ht⟩ := List.rdropWhile_prefix isPySpace (l.dropWhile isPySpace)
  rw [← hps0] at ht
  cases hps : pyStrip l with
  | nil =>
    rw [hps] at hc
    simp at hc
  | cons a as =>
    rw [hps] at hc ht
    rw [List.head?_cons] at hc
    injection hc with h1
    have hd : (l.dropWhile isPySpace).head? = some a := by
      rw [← ht]
      simp
    have hna := head?_dropWhile isPySpace l a hd
    rw [← h1]
    exact hna

theorem pyStrip_getLast (l : List Char) :
    ∀ c : Char, (pyStrip l).getLast? = some c → isPySpace c = false := by
  intro c hc
  have hne : pyStrip l ≠ [] := by
    intro he
    rw [he] at hc
    simp at hc
  have hlast := List.rdropWhile_last_not isPySpace (l.dropWhile isPySpace) hne
  rw [List.getLast?_eq_getLast _ hne] at hc
  injection hc with h1
  rw [← h1]
  simpa using hlast

theorem dropWhile_eq_self_of_head (p : Char → Bool) (l : List Char)
    (h : ∀ c : Char, l.head? = some c → p c = false) : l.dropWhile p = l := by
  cases l with
  | nil => rfl
  | cons x xs =>
    have hx : p x = false := h x rfl
    rw [List.dropWhile_cons_of_neg (by simp [hx])]

theorem sanitizeList_clean (l : List Char)
    (hcl : ∀ c ∈ l, isStrippedChar c = false) :
    sanitizeList l = collapseWS false (pyStrip l) := by
  unfold sanitizeList
  rw [List.filter_eq_self.mpr]
  intro c hc
  rcases mem_collapseWS (pyStrip l) false c hc with h1 | h2
  · simp [hcl c (pyStrip_subset l h1)]
  · rw [h2]
    decide

theorem collapse_strip_head (l : List Char) :
    ∀ c : Char, (collapseWS false (pyStrip l)).head? = some c → isPySpace c = false := by
  intro c hc
  cases hps : pyStrip l with
  | nil =>
    rw [hps] at hc
    simp [collapseWS] at hc
  | cons a as =>
    have ha : isPySpace a = false := pyStrip_head l a (by rw [hps]; rfl)
    rw [hps, collapseWS_cons_nonspace false a as ha, List.head?_cons] at hc
    injection hc with h2
    rw [← h2]
    exact ha

theorem collapse_strip_getLast (l : List Char) :
    ∀ c : Char, (collapseWS false (pyStrip l)).getLast? = some c → isPySpace c = false := by
  intro c hc
  cases hps : (pyStrip l).getLast? with
  | none =>
    have hnil : pyStrip l = [] := by
      cases hps2 : pyStrip l with
      | nil => rfl
      | cons a as =>
        rw [hps2] at hps
        simp at hps
    rw [hnil] at hc
    simp [collapseWS] at hc
  | some d =>
    have hd : isPySpace d = false := pyStrip_getLast l d hps
    have hg := collapseWS_getLast (pyStrip l) false d hps hd
    rw [hg] at hc
    injection hc with h2
    rw [← h2]
    exact hd

theorem sanitizeList_idem (l : List Char)
    (hcl : ∀ c ∈ l, isStrippedChar c = false) :
    sanitizeList (sanitizeList l) = sanitizeList l := by
  have h1 : sanitizeList l = collapseWS false (pyStrip l) := sanitizeList_clean l hcl
  have hcly : ∀ c ∈ collapseWS false (pyStrip l), isStrippedChar c = false := by
    intro c hc
    rcases mem_collapseWS (pyStrip l) false c hc with hm | hm
    · exact hcl c (pyStrip_subset l hm)
    · rw [hm]
      decide
  have hstrip : pyStrip (collapseWS false (pyStrip l)) = collapseWS false (pyStrip l) := by
    have hd : List.dropWhile isPySpace (collapseWS false (pyStrip l)) =
        collapseWS false (pyStrip l) :=
      dropWhile_eq_self_of_head isPySpace _ (collapse_strip_head l)
    have hr : List.rdropWhile isPySpace (collapseWS false (pyStrip l)) =
        collapseWS false (pyStrip l) := by
      refine List.rdropWhile_eq_self_iff.mpr ?_
      intro hne
      have hlast := collapse_strip_getLast l ((collapseWS false (pyStrip l)).getLast hne)
        (List.getLast?_eq_getLast _ hne)
      simp [hlast]
    show List.rdropWhile isPySpace
        (List.dropWhile isPySpace (collapseWS false (pyStrip l))) =
      collapseWS false (pyStrip l)
    rw [hd, hr]
  have hcoll : collapseWS false (collapseWS false (pyStrip l)) =
      collapseWS false (pyStrip l) := by
    refine (collapseWS_id (collapseWS false (pyStrip l)) ?_ ?_).1
    · intro c hc hsp
      exact collapseWS_space (pyStrip l) false c hc hsp
    · exact collapseWS_chain (pyStrip l) false
  calc sanitizeList (sanitizeList l)
      = sanitizeList (collapseWS false (pyStrip l)) := by rw [h1]
    _ = collapseWS false (pyStrip (collapseWS false (pyStrip l))) :=
        sanitizeList_clean _ hcly
    _ = collapseWS false (collapseWS false (pyStrip l)) := by rw [hstrip]
    _ = collapseWS false (pyStrip l) := hcoll
    _ = sanitizeList l := h1.symm

/-! ## Confidence bounds -/

theorem confBound (a b : ℕ) (p : Bool) (q : Prop) [Decidable q] :
    0 ≤ min (min ((a : ℚ) * 0.1) 0.3 + (if p then (0.2 : ℚ) else 0) +
        min ((b : ℚ) * 0.1) 0.3 + (if q then (0.2 : ℚ) else 0)) 1 ∧
      min (min ((a : ℚ) * 0.1) 0.3 + (if p then (0.2 : ℚ) else 0) +
        min ((b : ℚ) * 0.1) 0.3 + (if q then (0.2 : ℚ) else 0)) 1 ≤ 1 := by
  constructor
  · refine le_min ?_ (by norm_num)
    have h1 : (0 : ℚ) ≤ min ((a : ℚ) * 0.1) 0.3 := le_min (by positivity) (by norm_num)
    have h2 : (0 : ℚ) ≤ (if p then (0.2 : ℚ) else 0) := by split <;> norm_num
    have h3 : (0 : ℚ) ≤ min ((b : ℚ) * 0.1) 0.3 := le_min (by positivity) (by norm_num)
    have h4 : (0 : ℚ) ≤ (if q then (0.2 : ℚ) else 0) := by split <;> norm_num
    linarith
  · exact min_le_right _ _

theorem calcConfidence_bounds (r : String) :
    0 ≤ calcConfidence r ∧ calcConfidence r ≤ 1 := by
  unfold calcConfidence
  exact confBound _ _ _ _

/-! ## Claims -/

/-- Claim C1, counterexample.  The input `"hack"` matches a disallowed
pattern, yet `validate_input` rejects it with the out-of-domain message, not
the "inappropriate" one, because the math-relatedness check runs first; the
spec scenario `"What's your phone number?"` matches no disallowed pattern at
all and is likewise rejected as out-of-domain. -/
theorem c1_counterexample :
    containsInappropriate "hack" = true ∧
    validateInput "hack" = ⟨false, some outOfDomainMsg, none⟩ ∧
    validateInput ("What" ++ (Char.ofNat 39).toString ++ "s your phone number?") =
      ⟨false, some outOfDomainMsg, none⟩ ∧
    containsInappropriate ("What" ++ (Char.ofNat 39).toString ++ "s your phone number?")
      = false ∧
    outOfDomainMsg ≠ inappropriateMsg := by
  refine ⟨by decide, by decide, by decide, by decide, by decide⟩

/-- Claim C1 (amended): a disallowed-pattern match always yields an invalid
verdict, but the reason is "inappropriate" only when the text also passes the
domain-relevance check — the out-of-domain check runs first and otherwise
wins. -/
theorem c1_validateInput_disallowed (q : String)
    (h : containsInappropriate q = true) :
    validateInput q =
      (if isMathRelated q then (⟨false, some inappropriateMsg, none⟩ : InVerdict)
       else ⟨false, some outOfDomainMsg, none⟩) := by
  unfold validateInput
  by_cases hm : isMathRelated q
  · simp [hm, h]
  · simp [hm]

/-- Witness for C1 at the concrete input `"solve hack"` (math-related and
disallowed → reason "inappropriate"). -/
theorem c1_witness :
    containsInappropriate "solve hack" = true ∧
    isMathRelated "solve hack" = true ∧
    validateInput "solve hack" =
      (if isMathRelated "solve hack" then (⟨false, some inappropriateMsg, none⟩ : InVerdict)
       else ⟨false, some outOfDomainMsg, none⟩) :=
  ⟨by decide, by decide, c1_validateInput_disallowed "solve hack" (by decide)⟩

/-- Claim C2, counterexample.  Sanitization is not idempotent: removing `<>`
can create a new whitespace run (`"a <> b"` → `"a  b"`), which a second pass
collapses. -/
theorem c2_counterexample :
    sanitizeQuery (sanitizeQuery "a <> b") ≠ sanitizeQuery "a <> b" ∧
    sanitizeQuery "a <> b" = "a  b" ∧
    sanitizeQuery "a  b" = "a b" := by
  refine ⟨by decide, by decide, by decide⟩

/-- Claim C2 (amended): sanitization is idempotent on every input containing
none of the stripped characters `<>{}`. -/
theorem c2_sanitize_idem (q : String)
    (h : ∀ c ∈ q.toList, isStrippedChar c = false) :
    sanitizeQuery (sanitizeQuery q) = sanitizeQuery q := by
  unfold sanitizeQuery
  have ht : (String.mk (sanitizeList q.toList)).toList = sanitizeList q.toList := rfl
  rw [ht, sanitizeList_idem q.toList h]

/-- Witness for C2 at a concrete whitespace-heavy input. -/
theorem c2_witness :
    (∀ c ∈ ("  Solve   2x + 3 = 7  " : String).toList, isStrippedChar c = false) ∧
    sanitizeQuery (sanitizeQuery "  Solve   2x + 3 = 7  ") =
      sanitizeQuery "  Solve   2x + 3 = 7  " :=
  ⟨by decide, c2_sanitize_idem "  Solve   2x + 3 = 7  " (by decide)⟩

/-- Claim C3: for candidate lists with per-list distinct ids, every merged
entry's `final_score` follows the weighting rule — `0.7·sv + 0.3·sk` for a
document in both lists, `0.7·sv` for vector-only, `0.3·sk` for keyword-only —
and the output is sorted by `final_score` descending and has at most 5
entries. -/
theorem c3_merge_weighting (vr kr : List Doc) (hv : (docIds vr).Nodup)
    (hk : (docIds kr).Nodup) :
    (∀ e ∈ mergeAndRerank vr kr,
      (∀ sv sk : ℚ, scoreOf vr e.source_id = some sv → scoreOf kr e.source_id = some sk →
        e.final_score = sv * 0.7 + sk * 0.3) ∧
      (∀ sv : ℚ, scoreOf vr e.source_id = some sv → scoreOf kr e.source_id = none →
        e.final_score = sv * 0.7) ∧
      (∀ sk : ℚ, scoreOf vr e.source_id = none → scoreOf kr e.source_id = some sk →
        e.final_score = sk * 0.3)) ∧
    List.Pairwise (fun a b => b.final_score ≤ a.final_score) (mergeAndRerank vr kr) ∧
    (mergeAndRerank vr kr).length ≤ 5 := by
  refine ⟨?_, ?_, ?_⟩
  · intro e he
    have he1 : e ∈ sortDescBy (fun x => x.final_score) ((mergeCombined vr kr).map Prod.snd) :=
      List.take_subset 5 _ he
    have he2 : e ∈ (mergeCombined vr kr).map Prod.snd := (mem_sortDescBy _ _ _).mp he1
    obtain ⟨p, hp, hpe⟩ := List.mem_map.mp he2
    have hsid : (p.2).source_id = p.1 := mergeCombined_sid vr kr p hp
    have hnd := mergeCombined_keys_nodup vr kr hv hk
    have hlook : lookupA p.1 (mergeCombined vr kr) = some p.2 := by
      apply lookupA_of_mem_of_nodup p.1 p.2 _ hnd
      simpa using hp
    rw [mergeCombined_lookup vr kr hv hk p.1] at hlook
    have hid : e.source_id = p.1 := by
      rw [← hpe]
      exact hsid
    rw [hid]
    cases hfv : vr.find? (fun d => d.source_id == p.1) with
    | some dv =>
      cases hfk : kr.find? (fun d => d.source_id == p.1) with
      | some dk =>
        rw [hfv, hfk] at hlook
        injection hlook with hE
        refine ⟨?_, ?_, ?_⟩
        · intro sv sk hsv hsk
          rw [scoreOf, hfv, Option.map_some'] at hsv
          rw [scoreOf, hfk, Option.map_some'] at hsk
          injection hsv with hsv'
          injection hsk with hsk'
          rw [← hpe, ← hE, ← hsv', ← hsk']
        · intro sv _ hsk
          rw [scoreOf, hfk, Option.map_some'] at hsk
          exact absurd hsk (by simp)
        · intro sk hsv _
          rw [scoreOf, hfv, Option.map_some'] at hsv
          exact absurd hsv (by simp)
      | none =>
        rw [hfv, hfk] at hlook
        injection hlook with hE
        refine ⟨?_, ?_, ?_⟩
        · intro sv sk _ hsk
          rw [scoreOf, hfk, Option.map_none'] at hsk
          exact absurd hsk (by simp)
        · intro sv hsv _
          rw [scoreOf, hfv, Option.map_some'] at hsv
          injection hsv with hsv'
          rw [← hpe, ← hE, ← hsv']
        · intro sk hsv _
          rw [scoreOf, hfv, Option.map_some'] at hsv
          exact absurd hsv (by simp)
    | none =>
      cases hfk : kr.find? (fun d => d.source_id == p.1) with
      | some dk =>
        rw [hfv, hfk] at hlook
        injection hlook with hE
        refine ⟨?_, ?_, ?_⟩
        · intro sv sk hsv _
          rw [scoreOf, hfv, Option.map_none'] at hsv
          exact absurd hsv (by simp)
        · intro sv hsv _
          rw [scoreOf, hfv, Option.map_none'] at hsv
          exact absurd hsv (by simp)
        · intro sk _ hsk
          rw [scoreOf, hfk, Option.map_some'] at hsk
          injection hsk with hsk'
          rw [← hpe, ← hE, ← hsk']
      | none =>
        rw [hfv, hfk] at hlook
        exact absurd hlook (by simp)
  · exact (sortDescBy_sorted (fun x => x.final_score)
      ((mergeCombined vr kr).map Prod.snd)).sublist (List.take_sublist 5 _)
  · exact List.length_take_le 5 _

/-- Witness for C3 on the spec scenario: vector `{A, 0.9}`, keyword
`{A, 0.5}`, `{B, 0.6}` merge to `[{A, 0.78}, {B, 0.18}]` in that order. -/
theorem c3_witness :
    (docIds [(⟨"va", 0.9, "A"⟩ : Doc)]).Nodup ∧
    (docIds [(⟨"ka", 0.5, "A"⟩ : Doc), ⟨"kb", 0.6, "B"⟩]).Nodup ∧
    (mergeAndRerank [(⟨"va", 0.9, "A"⟩ : Doc)] [⟨"ka", 0.5, "A"⟩, ⟨"kb", 0.6, "B"⟩]).map
        (fun e => (e.source_id, e.final_score)) = [("A", 0.78), ("B", 0.18)] ∧
    List.Pairwise (fun a b => b.final_score ≤ a.final_score)
      (mergeAndRerank [(⟨"va", 0.9, "A"⟩ : Doc)] [⟨"ka", 0.5, "A"⟩, ⟨"kb", 0.6, "B"⟩]) := by
  have hAB : ("A" : String) ≠ "B" := by decide
  have hBA : ("B" : String) ≠ "A" := by decide
  refine ⟨by decide, by decide, ?_,
    (c3_merge_weighting _ _ (by decide) (by decide)).2.1⟩
  norm_num [mergeAndRerank, mergeCombined, mergeKwFold, mergeVecFold, sortDescBy,
    insertDescBy, updateA, lookupA, hAB, hBA]

/-- Claim C7, counterexample.  Two vector candidates with equal merged scores
keep their vector-list order: id `"B"` is ranked before id `"A"` although
`"A"` is lexicographically (and alphabetically) smaller, so equal-score ties
are not broken by document id ascending. -/
theorem c7_counterexample :
    (mergeAndRerank [(⟨"vb", 0.5, "B"⟩ : Doc), ⟨"va", 0.5, "A"⟩] []).map
        (fun e => (e.source_id, e.final_score)) = [("B", 0.35), ("A", 0.35)] ∧
    lexLtChars ("A" : String).toList ("B" : String).toList = true := by
  have hAB : ("A" : String) ≠ "B" := by decide
  have hBA : ("B" : String) ≠ "A" := by decide
  refine ⟨?_, by decide⟩
  norm_num [mergeAndRerank, mergeCombined, mergeKwFold, mergeVecFold, sortDescBy,
    insertDescBy, updateA, lookupA, hAB, hBA]

/-- Claim C7 (amended): among equal-`final_score` entries of the merged
result, a vector-sourced entry never appears after a keyword-only entry (the
stable sort preserves the combined dict's insertion order, which lists vector
entries first); no id-ascending tie-break holds. -/
theorem c7_tie_priority (vr kr : List Doc) (hv : (docIds vr).Nodup)
    (hk : (docIds kr).Nodup) :
    List.Pairwise (fun a b => a.final_score = b.final_score →
      (IsVectorSourced vr b → IsVectorSourced vr a)) (mergeAndRerank vr kr) := by
  have hkeys := mergeCombined_keys vr kr hv hk
  have hkpair : List.Pairwise (fun a b : String => b ∈ docIds vr → a ∈ docIds vr)
      ((mergeCombined vr kr).map Prod.fst) := by
    rw [hkeys]
    refine List.pairwise_append.mpr ⟨?_, ?_, ?_⟩
    · exact List.pairwise_of_forall_mem_list (fun a ha b _ _ => ha)
    · refine List.pairwise_of_forall_mem_list ?_
      intro a _ b hb hbv
      have hbf := List.of_mem_filter hb
      simp at hbf
      exact absurd hbv hbf
    · intro a ha b _ _
      exact ha
  have hcpair : List.Pairwise
      (fun p q : String × MDoc => q.1 ∈ docIds vr → p.1 ∈ docIds vr)
      (mergeCombined vr kr) := List.pairwise_map.mp hkpair
  have hvpair : List.Pairwise (fun a b : MDoc =>
      b.source_id ∈ docIds vr → a.source_id ∈ docIds vr)
      ((mergeCombined vr kr).map Prod.snd) := by
    refine List.pairwise_map.mpr ?_
    refine hcpair.imp_of_mem ?_
    intro p q hp hq hpq
    rw [mergeCombined_sid vr kr p hp, mergeCombined_sid vr kr q hq]
    exact hpq
  have hsorted := sortDescBy_pairwise (fun e => e.final_score)
    (fun a b : MDoc => a.final_score = b.final_score →
      (IsVectorSourced vr b → IsVectorSourced vr a))
    (fun a b hne heq => absurd heq hne)
    ((mergeCombined vr kr).map Prod.snd)
    (hvpair.imp (fun h => fun _ => h))
  exact hsorted.sublist (List.take_sublist 5 _)

/-- Witness for C7 at a concrete pair of candidate lists. -/
theorem c7_witness :
    List.Pairwise (fun a b : MDoc => a.final_score = b.final_score →
      (IsVectorSourced [(⟨"va", 0.9, "A"⟩ : Doc)] b →
        IsVectorSourced [(⟨"va", 0.9, "A"⟩ : Doc)] a))
      (mergeAndRerank [(⟨"va", 0.9, "A"⟩ : Doc)] [(⟨"kb", 0.6, "B"⟩ : Doc)]) :=
  c7_tie_priority [(⟨"va", 0.9, "A"⟩ : Doc)] [(⟨"kb", 0.6, "B"⟩ : Doc)]
    (by decide) (by decide)

theorem foldl_min_const {α : Type} (f : α → ℚ) (x : α) (l : List α)
    (h : ∀ p ∈ l, f x ≤ f p) :
    l.foldl (fun acc y => if f y < f acc then y else acc) x = x := by
  induction l generalizing x with
  | nil => rfl
  | cons y ys ih =>
    rw [List.foldl_cons, if_neg (not_lt.mpr (h y (List.mem_cons_self y ys)))]
    exact ih x (fun p hp => h p (List.mem_cons_of_mem y hp))

theorem foldl_min_mem {α : Type} (f : α → ℚ) (l : List α) :
    ∀ x : α, l.foldl (fun acc y => if f y < f acc then y else acc) x = x ∨
      l.foldl (fun acc y => if f y < f acc then y else acc) x ∈ l := by
  induction l with
  | nil =>
    intro x
    exact Or.inl rfl
  | cons y ys ih =>
    intro x
    rw [List.foldl_cons]
    rcases ih (if f y < f x then y else x) with h | h
    · rw [h]
      by_cases hy : f y < f x
      · rw [if_pos hy]
        exact Or.inr (List.mem_cons_self y ys)
      · rw [if_neg hy]
        exact Or.inl rfl
    · exact Or.inr (List.mem_cons_of_mem y h)

theorem pyMinBy_first {α : Type} (f : α → ℚ) (pre post : List α) (x : α)
    (hpre : ∀ p ∈ pre, f x < f p) (hpost : ∀ p ∈ post, f x ≤ f p) :
    pyMinBy f (pre ++ x :: post) = some x := by
  cases pre with
  | nil =>
    rw [List.nil_append]
    show some (post.foldl (fun acc y => if f y < f acc then y else acc) x) = some x
    rw [foldl_min_const f x post hpost]
  | cons a pre' =>
    rw [List.cons_append]
    show some ((pre' ++ x :: post).foldl (fun acc y => if f y < f acc then y else acc) a)
      = some x
    rw [List.foldl_append]
    have hzgt : f x < f (pre'.foldl (fun acc y => if f y < f acc then y else acc) a) := by
      rcases foldl_min_mem f pre' a with h | h
      · rw [h]
        exact hpre a (List.mem_cons_self a pre')
      · exact hpre _ (List.mem_cons_of_mem a h)
    rw [List.foldl_cons, if_pos hzgt, foldl_min_const f x post hpost]

/-- Claim C4, counterexample.  With `max_size = 0` one `set` on the empty
cache still stores the entry (eviction on an empty dict is a no-op and the
insert is unconditional), so the size exceeds the configured maximum. -/
theorem c4_counterexample :
    (cacheSet (emptyCache ℕ 0 3600) "f1" 1 "" "" 0).max_size = 0 ∧
    (cacheSet (emptyCache ℕ 0 3600) "f1" 1 "" "" 0).cache.length = 1 := by
  constructor
  · rfl
  · rfl

/-- Claim C4 (amended): for any configured `max_size ≥ 1`, the cache size
never exceeds `max_size`; inserting a fresh fingerprint at capacity keeps the
size at `max_size` and evicts exactly the one entry Python's `min` selects —
an entry with minimal `last_access_at`; and inserting `max_size + 1` distinct
fingerprints into an empty cache leaves exactly `max_size` entries. -/
theorem c4_cache_capacity (α : Type) (ms : ℕ) (hms : 1 ≤ ms) :
    (∀ (st : CacheState α) (q : String) (r : α) (c m : String) (t : ℚ),
      CacheWF st → st.max_size = ms → st.cache.length ≤ ms →
      (cacheSet st q r c m t).cache.length ≤ ms) ∧
    (∀ (st : CacheState α) (q : String) (r : α) (c m : String) (t : ℚ),
      CacheWF st → st.max_size = ms → st.cache.length = ms →
      generateKey q c m ∉ st.cache.map Prod.fst →
      (cacheSet st q r c m t).cache.length = ms ∧
      ∃ k0 t0, pyMinBy (fun p => p.2) st.access_times = some (k0, t0) ∧
        (∀ p ∈ st.access_times, t0 ≤ p.2) ∧
        (cacheSet st q r c m t).cache =
          updateA (generateKey q c m) ⟨r, t⟩ (eraseA k0 st.cache)) ∧
    (∀ (items : List (String × α)) (ttl t : ℚ),
      (items.map (fun it => generateKey it.1 "" "")).Nodup →
      items.length = ms + 1 →
      (setAll (emptyCache α ms ttl) items t).cache.length = ms) := by
  refine ⟨?_, ?_, ?_⟩
  · intro st q r c m t hwf hmax hle
    have h := cacheSet_length_le st q r c m t hwf (by omega) (by omega)
    omega
  · intro st q r c m t hwf hmax hcap hfresh
    have hlen := cacheSet_length_fresh st q r c m t hwf (by omega) (by omega) hfresh
    constructor
    · rw [hlen, hcap, hmax]
      exact min_eq_right (Nat.le_succ ms)
    · have hacc_len : st.access_times.length = ms := by
        have h1 := congrArg List.length hwf.1
        simp only [List.length_map] at h1
        omega
      have hane : st.access_times ≠ [] := by
        intro he
        rw [he] at hacc_len
        simp at hacc_len
        omega
      obtain ⟨x, pre, post, hmin, _, _, _⟩ :=
        pyMinBy_split (fun p => p.2) st.access_times hane
      obtain ⟨k0, t0⟩ := x
      refine ⟨k0, t0, hmin, pyMinBy_min _ _ _ hmin, ?_⟩
      have hcond : st.max_size ≤ st.cache.length := by omega
      simp only [cacheSet, if_pos hcond, evictOldest, hmin]
  · intro items ttl t hnd hlen
    have h := setAll_length ms t items (emptyCache α ms ttl) (cacheWF_empty α ms ttl)
      rfl hms (by simp [emptyCache]) (by
        intro it _ hmem
        simp [emptyCache] at hmem) hnd
    rw [h]
    simp only [emptyCache, List.length_nil, Nat.zero_add, hlen]
    exact min_eq_right (Nat.le_succ ms)

/-- Witness for C4: the spec scenario with `max_size = 1` — two distinct
fingerprints leave one entry, the first misses, the second hits. -/
theorem c4_witness :
    (setAll (emptyCache ℕ 1 3600) [("f1", 10), ("f2", 20)] 0).cache.length = 1 ∧
    (cacheGet (cacheSet (cacheSet (emptyCache ℕ 1 3600) "f1" 10 "" "" 0) "f2" 20 "" "" 1)
        "f1" "" "" 1).1 = none ∧
    (cacheGet (cacheSet (cacheSet (emptyCache ℕ 1 3600) "f1" 10 "" "" 0) "f2" 20 "" "" 1)
        "f2" "" "" 1).1 = some 20 := by
  have h1 : ("f2" ++ "_" ++ "_" : String) ≠ "f1" ++ "_" ++ "_" := by decide
  have h2 : ("f1" ++ "_" ++ "_" : String) ≠ "f2" ++ "_" ++ "_" := by decide
  refine ⟨(c4_cache_capacity ℕ 1 (by decide)).2.2 [("f1", 10), ("f2", 20)] 3600 0
      (by decide) (by decide), ?_, ?_⟩ <;>
    norm_num [cacheGet, cacheSet, emptyCache, generateKey, updateA, lookupA, eraseA,
      evictOldest, pyMinBy, h1, h2]

/-- Claim C5: `get` misses exactly on an absent fingerprint or on
`now − created_at > ttl` (deleting the expired entry from both dicts on that
check); otherwise it is a hit that updates `last_access_at` and returns the
stored payload unmodified. -/
theorem c5_cache_get (α : Type) (st : CacheState α) (q c m : String) (now : ℚ) :
    (lookupA (generateKey q c m) st.cache = none → cacheGet st q c m now = (none, st)) ∧
    (∀ e : CacheEntry α, lookupA (generateKey q c m) st.cache = some e →
      now - e.timestamp > st.ttl →
      cacheGet st q c m now =
        (none, { st with cache := eraseA (generateKey q c m) st.cache,
                         access_times := eraseA (generateKey q c m) st.access_times })) ∧
    (∀ e : CacheEntry α, lookupA (generateKey q c m) st.cache = some e →
      ¬(now - e.timestamp > st.ttl) →
      cacheGet st q c m now =
        (some e.response,
          { st with access_times := updateA (generateKey q c m) now st.access_times })) := by
  refine ⟨?_, ?_, ?_⟩
  · intro hl
    simp only [cacheGet, hl]
  · intro e hl ht
    simp only [cacheGet, hl, if_pos ht]
  · intro e hl ht
    simp only [cacheGet, hl, if_neg ht]

/-- Witness for C5: with `ttl = 10` an entry stored at time 0 hits at
time 9 and misses at time 11. -/
theorem c5_witness :
    (cacheGet (cacheSet (emptyCache ℕ 1 10) "q" 5 "" "" 0) "q" "" "" 9).1 = some 5 ∧
    (cacheGet (cacheSet (emptyCache ℕ 1 10) "q" 5 "" "" 0) "q" "" "" 11).1 = none := by
  have hlk : lookupA (generateKey "q" "" "")
      (cacheSet (emptyCache ℕ 1 10) "q" 5 "" "" 0).cache = some ⟨5, 0⟩ := by
    norm_num [cacheSet, emptyCache, generateKey, updateA, lookupA, evictOldest, pyMinBy]
  have httl : (cacheSet (emptyCache ℕ 1 10) "q" 5 "" "" 0).ttl = 10 := by
    rw [cacheSet_ttl]
    rfl
  constructor
  · have hhit := (c5_cache_get ℕ (cacheSet (emptyCache ℕ 1 10) "q" 5 "" "" 0)
      "q" "" "" 9).2.2 ⟨5, 0⟩ hlk (by rw [httl]; norm_num)
    simp [hhit]
  · have hmiss := (c5_cache_get ℕ (cacheSet (emptyCache ℕ 1 10) "q" 5 "" "" 0)
      "q" "" "" 11).2.1 ⟨5, 0⟩ hlk (by rw [httl]; norm_num)
    simp [hmiss]

/-- Claim C6, counterexample.  Two entries share the minimal
`last_access_at`; the lexicographically smallest fingerprint is `"a__"`, yet
`"b__"` (inserted first) is the one evicted — the tie-break is dict insertion
order, not lexicographic order. -/
theorem c6_counterexample :
    (cacheSet (cacheSet (emptyCache ℕ 2 3600) "b" 1 "" "" 0) "a" 2 "" "" 0).access_times =
      [(generateKey "b" "" "", 0), (generateKey "a" "" "", 0)] ∧
    lexLtChars (generateKey "a" "" "").toList (generateKey "b" "" "").toList = true ∧
    (cacheSet (cacheSet (cacheSet (emptyCache ℕ 2 3600) "b" 1 "" "" 0) "a" 2 "" "" 0)
        "c" 3 "" "" 1).cache.map Prod.fst =
      [generateKey "a" "" "", generateKey "c" "" ""] := by
  have hba : ("b" ++ "_" ++ "_" : String) ≠ "a" ++ "_" ++ "_" := by decide
  have hab : ("a" ++ "_" ++ "_" : String) ≠ "b" ++ "_" ++ "_" := by decide
  have hca : ("c" ++ "_" ++ "_" : String) ≠ "a" ++ "_" ++ "_" := by decide
  have hcb : ("c" ++ "_" ++ "_" : String) ≠ "b" ++ "_" ++ "_" := by decide
  have hac : ("a" ++ "_" ++ "_" : String) ≠ "c" ++ "_" ++ "_" := by decide
  have hbc : ("b" ++ "_" ++ "_" : String) ≠ "c" ++ "_" ++ "_" := by decide
  refine ⟨?_, by decide, ?_⟩ <;>
    norm_num [cacheSet, emptyCache, generateKey, updateA, lookupA, eraseA,
      evictOldest, pyMinBy, hba, hab, hca, hcb, hac, hbc]

/-- Claim C6 (amended): at eviction time the entry removed is the first one,
in dict insertion order, among those attaining the minimal `last_access_at`
(Python `min` keeps the earliest of tied keys) — a deterministic tie-break,
but by insertion order rather than lexicographic fingerprint order. -/
theorem c6_evict_first_min (α : Type) (st : CacheState α) (k0 : String) (t0 : ℚ)
    (pre post : List (String × ℚ))
    (hsplit : st.access_times = pre ++ (k0, t0) :: post)
    (hpre : ∀ p ∈ pre, t0 < p.2)
    (hpost : ∀ p ∈ post, t0 ≤ p.2) :
    evictOldest st = { st with cache := eraseA k0 st.cache,
                               access_times := eraseA k0 st.access_times } := by
  have hmin : pyMinBy (fun p => p.2) st.access_times = some (k0, t0) := by
    rw [hsplit]
    exact pyMinBy_first (fun p => p.2) pre post (k0, t0) hpre hpost
  simp only [evictOldest, hmin]

/-- Witness for C6: with two entries tied at `last_access_at = 0`, the
first-inserted one (`"b"`) is evicted. -/
theorem c6_witness :
    evictOldest
        (⟨[("b", ⟨1, 0⟩), ("a", ⟨2, 0⟩)], [("b", 0), ("a", 0)], 2, 3600⟩ : CacheState ℕ) =
      ⟨[("a", ⟨2, 0⟩)], [("a", (0 : ℚ))], 2, 3600⟩ := by
  have h := c6_evict_first_min ℕ
    ⟨[("b", ⟨1, 0⟩), ("a", ⟨2, 0⟩)], [("b", 0), ("a", 0)], 2, 3600⟩
    "b" 0 [] [("a", 0)] rfl (by simp)
    (by
      intro p hp
      simp at hp
      subst hp
      norm_num)
  rw [h]
  norm_num [eraseA]

/-- Claim C8, counterexample.  A response without any educational marker is
rejected with confidence `0.0`, while the claim's clamp formula evaluates to
`0.3` on the same text — the formula describes only the accepting branch. -/
theorem c8_counterexample :
    (validateOutput "====").confidence = 0 ∧ calcConfidence "====" = 0.3 := by
  constructor
  · have h : isEducationalResponse "====" = false := by decide
    simp [validateOutput, h]
  · have h1 : (confSymbols.map (fun c => ("====" : String).toList.count c)).sum = 4 := by
      decide
    have h2 : listInfix "step".toList (pyLower ("====" : String).toList) = false := by
      decide
    have h3 : (confTerms.map
        (fun t => countOccs t.toList (pyLower ("====" : String).toList))).sum = 0 := by
      simp [confTerms, countOccs, pyLower, List.isPrefixOf]
    have h4 : ("====" : String).toList.length = 4 := by decide
    rw [calcConfidence, h1, h2, h3, h4]
    norm_num

/-- Claim C8 (amended): the confidence returned by `validate_output` always
lies in `[0, 1]`; it equals the clamp formula evaluated on the filtered
response when the response carries an educational marker, and is `0`
otherwise. -/
theorem c8_confidence (r : String) :
    0 ≤ (validateOutput r).confidence ∧ (validateOutput r).confidence ≤ 1 ∧
    (validateOutput r).confidence =
      (if isEducationalResponse r = true then calcConfidence (filterResponse r) else 0) := by
  by_cases h : isEducationalResponse r = true
  · have hv : validateOutput r =
        ⟨true, filterResponse r, calcConfidence (filterResponse r)⟩ := by
      simp [validateOutput, h]
    refine ⟨?_, ?_, ?_⟩
    · rw [hv]
      exact (calcConfidence_bounds _).1
    · rw [hv]
      exact (calcConfidence_bounds _).2
    · rw [hv, if_pos h]
  · have hv : validateOutput r = ⟨false, outFallbackMsg, 0⟩ := by
      simp [validateOutput, h]
    refine ⟨?_, ?_, ?_⟩
    · rw [hv]
    · rw [hv]
      norm_num
    · rw [hv, if_neg h]

/-- Claim C9: a failure raised by the backing index during vector search or
keyword search is absorbed, and the search returns an empty candidate list. -/
theorem c9_search_error_absorbed (err : String) (query : String) (top_k : ℕ) :
    vectorSearch (Except.error err) = [] ∧
    keywordSearch query top_k (Except.error err) = [] :=
  ⟨rfl, rfl⟩

/-- Claim C10: the cache fingerprint is not injective — the three components
are joined with `"_"` without escaping, so `("a_b", "c", m)` and
`("a", "b_c", m)` share a key, and a `get` for one triple returns the payload
a `set` stored for the other. -/
theorem c10_fingerprint_collision :
    generateKey "a_b" "c" "m" = generateKey "a" "b_c" "m" ∧
    ("a_b", "c") ≠ (("a" : String), ("b_c" : String)) ∧
    (cacheGet (cacheSet (emptyCache ℕ 10 3600) "a_b" 42 "c" "m" 0) "a" "b_c" "m" 0).1 =
      some 42 := by
  have h1 : ("a_b" ++ "_" ++ "c" ++ "_" ++ "m" : String) =
      "a" ++ "_" ++ "b_c" ++ "_" ++ "m" := by decide
  refine ⟨by decide, by decide, ?_⟩
  norm_num [cacheGet, cacheSet, emptyCache, generateKey, updateA, lookupA, eraseA,
    evictOldest, pyMinBy, h1]
